import Mathlib

/-!
# Memory manager (`memory_manager.c`): first-fit pool allocator

Shallow embedding of the block-descriptor allocator.

* The singly linked, NULL-terminated list of `MemBlock` nodes is a Lean `List MemBlock`
  (head of the list = `block_list`).
* `size_t` values are natural numbers; every C addition on them is written with `wadd`,
  addition modulo `2 ^ 64`.  The subtractions in the source are guarded by a `>` test, so
  they never wrap and are plain truncated subtraction.
* A pointer into the pool is `some off`, where `off = (size_t)(ptr - memory_pool)` is its
  offset from the pool base; `none` is `NULL`.
* Every public call performs at most one `malloc(sizeof(MemBlock))`; whether that call
  succeeds is the Boolean argument `ok` of `mem_alloc` and `mem_resize`.
* The bytes of the pool are a list of naturals of length `pool_size`.  `malloc` returns
  indeterminate bytes: `mem_init` receives them as the function `junk`.
-/

namespace MemoryManager

/-- Number of values of a `size_t` (64-bit target). -/
def WORD : Nat := 2 ^ 64

/-- Unsigned `size_t` addition. -/
def wadd (a b : Nat) : Nat := (a + b) % WORD

/-- The C type `struct MemBlock` without its `next` link. -/
structure MemBlock where
  offset : Nat
  size : Nat
  is_free : Bool
deriving DecidableEq, Repr

/-- Global variables `memory_pool`, `pool_size`, `block_list`. -/
structure State where
  memory_pool : Option (List Nat)
  pool_size : Nat
  block_list : List MemBlock
deriving DecidableEq, Repr

/-- The function `mem_init`: both `malloc` calls succeed (otherwise the process exits). -/
def mem_init (size : Nat) (junk : Nat → Nat) : State :=
  { memory_pool := some ((List.range size).map junk)
    pool_size := size
    block_list := [{ offset := 0, size := size, is_free := true }] }

/-- First loop of `mem_alloc` (the `size == 0` case): offset of the first free block. -/
def alloc_zero_scan : List MemBlock → Option Nat
  | [] => none
  | cur :: rest => if cur.is_free then some cur.offset else alloc_zero_scan rest

/-- Second loop of `mem_alloc`: returned pointer and the chain from `current` onwards. -/
def alloc_scan (size : Nat) (ok : Bool) : List MemBlock → Option Nat × List MemBlock
  | [] => (none, [])
  | cur :: rest =>
    if cur.is_free = true ∧ cur.size ≥ size then
      if cur.size > size then
        if ok then
          (some cur.offset,
            { offset := cur.offset, size := size, is_free := false } ::
            { offset := wadd cur.offset size, size := cur.size - size, is_free := true } ::
            rest)
        else (none, cur :: rest)
      else (some cur.offset, { cur with is_free := false } :: rest)
    else ((alloc_scan size ok rest).1, cur :: (alloc_scan size ok rest).2)

/-- The function `mem_alloc`. -/
def mem_alloc (s : State) (size : Nat) (ok : Bool) : Option Nat × State :=
  if size = 0 then (alloc_zero_scan s.block_list, s)
  else ((alloc_scan size ok s.block_list).1,
        { s with block_list := (alloc_scan size ok s.block_list).2 })

/-- Step "Merge with next block if it's free" of `mem_free`. -/
def merge_next (cur : MemBlock) (rest : List MemBlock) : MemBlock × List MemBlock :=
  match rest with
  | [] => (cur, [])
  | nxt :: rest2 =>
    if nxt.is_free then ({ cur with size := wadd cur.size nxt.size }, rest2)
    else (cur, nxt :: rest2)

/-- Loop of `mem_free`, with `prev` and the chain from `current` onwards; the result is the
chain from `prev` onwards. -/
def free_scan (offset : Nat) : Option MemBlock → List MemBlock → List MemBlock
  | prev, [] => prev.toList
  | prev, cur :: rest =>
    if cur.offset = offset then
      if cur.is_free then prev.toList ++ cur :: rest
      else
        match prev with
        | some p =>
          if p.is_free then
            { p with size := wadd p.size (merge_next { cur with is_free := true } rest).1.size } ::
              (merge_next { cur with is_free := true } rest).2
          else
            p :: (merge_next { cur with is_free := true } rest).1 ::
              (merge_next { cur with is_free := true } rest).2
        | none =>
          (merge_next { cur with is_free := true } rest).1 ::
            (merge_next { cur with is_free := true } rest).2
    else prev.toList ++ free_scan offset (some cur) rest

/-- The function `mem_free`. -/
def mem_free (s : State) (ptr : Option Nat) : State :=
  match ptr with
  | none => s
  | some offset => { s with block_list := free_scan offset none s.block_list }

/-- Outcome of the loop of `mem_resize`. -/
inductive ResizeScan where
  /-- The loop returned `ret` after rewriting the chain in place. -/
  | done (ret : Option Nat) (chain : List MemBlock)
  /-- The "Allocate new block" branch was reached for a block of size `old_size`. -/
  | moved (old_size : Nat)
  /-- The loop ended: "Block not found". -/
  | missing
deriving DecidableEq, Repr

/-- Step "Split the block" of `mem_resize`: `current` keeps its `is_free` flag. -/
def resize_split (cur : MemBlock) (size : Nat) (ok : Bool) (ptr : Nat) (rest : List MemBlock) :
    ResizeScan :=
  if cur.size > size then
    if ok then
      ResizeScan.done (some ptr)
        ({ cur with size := size } ::
          { offset := wadd cur.offset size, size := cur.size - size, is_free := true } :: rest)
    else ResizeScan.done none (cur :: rest)
  else ResizeScan.done (some ptr) (cur :: rest)

/-- Loop of `mem_resize` over the chain from `current` onwards. -/
def resize_scan (offset size : Nat) (ok : Bool) : List MemBlock → ResizeScan
  | [] => ResizeScan.missing
  | cur :: rest =>
    if cur.offset = offset then
      if cur.size ≥ size then resize_split cur size ok offset rest
      else
        match rest with
        | [] => ResizeScan.moved cur.size
        | nxt :: rest2 =>
          if nxt.is_free = true ∧ wadd cur.size nxt.size ≥ size then
            resize_split { cur with size := wadd cur.size nxt.size } size ok offset rest2
          else ResizeScan.moved cur.size
    else
      match resize_scan offset size ok rest with
      | ResizeScan.done ret chain => ResizeScan.done ret (cur :: chain)
      | ResizeScan.moved old_size => ResizeScan.moved old_size
      | ResizeScan.missing => ResizeScan.missing

/-- The call `memcpy(memory_pool + dst, memory_pool + src, n)` on the pool bytes. -/
def memcpy (pool : List Nat) (dst src n : Nat) : List Nat :=
  (List.range pool.length).map fun i =>
    if dst ≤ i ∧ i < dst + n then pool.getD (src + (i - dst)) 0 else pool.getD i 0

/-- The function `mem_resize`. -/
def mem_resize (s : State) (ptr : Option Nat) (size : Nat) (ok : Bool) : Option Nat × State :=
  match ptr with
  | none => mem_alloc s size ok
  | some offset =>
    if size = 0 then (none, mem_free s (some offset))
    else
      match resize_scan offset size ok s.block_list with
      | ResizeScan.done ret chain => (ret, { s with block_list := chain })
      | ResizeScan.missing => (none, s)
      | ResizeScan.moved old_size =>
        match mem_alloc s size ok with
        | (none, s1) => (none, s1)
        | (some new_off, s1) =>
          (some new_off,
            mem_free { s1 with memory_pool := s1.memory_pool.map fun pool =>
                          memcpy pool new_off offset old_size }
              (some offset))

/-- The function `mem_deinit`. -/
def mem_deinit (s : State) : State :=
  match s.memory_pool with
  | some _ => { memory_pool := none, pool_size := 0, block_list := [] }
  | none => { s with block_list := [] }

/-- A call of one of the public operations `mem_alloc`, `mem_free`, `mem_resize`. -/
inductive Op where
  | alloc (size : Nat) (ok : Bool)
  | free (ptr : Option Nat)
  | resize (ptr : Option Nat) (size : Nat) (ok : Bool)
deriving DecidableEq, Repr

/-- State after one public call. -/
def step (s : State) : Op → State
  | Op.alloc size ok => (mem_alloc s size ok).2
  | Op.free ptr => mem_free s ptr
  | Op.resize ptr size ok => (mem_resize s ptr size ok).2

/-- State after a finite sequence of public calls. -/
def run (s : State) (ops : List Op) : State := ops.foldl step s

/-- The blocks from offset `start` on are laid end to end and finish at `stop`. -/
def Tiles : Nat → List MemBlock → Nat → Prop
  | start, [], stop => start = stop
  | start, b :: rest, stop => b.offset = start ∧ Tiles (b.offset + b.size) rest stop

/-- Partition invariant: the chain is non-empty, starts at offset 0, each descriptor ends
where the next begins, and the last one ends at `capacity`. -/
def PartitionInv (chain : List MemBlock) (capacity : Nat) : Prop :=
  chain ≠ [] ∧ Tiles 0 chain capacity

/-- No two consecutive descriptors are both free. -/
def NoAdjFree : List MemBlock → Prop
  | a :: b :: rest => ¬ (a.is_free = true ∧ b.is_free = true) ∧ NoAdjFree (b :: rest)
  | _ => True

instance instDecidableTiles : ∀ (start : Nat) (l : List MemBlock) (stop : Nat),
    Decidable (Tiles start l stop)
  | start, [], stop => by unfold Tiles; infer_instance
  | start, b :: rest, stop => by
    unfold Tiles
    have := instDecidableTiles (b.offset + b.size) rest stop
    infer_instance

instance instDecidablePartitionInv (chain : List MemBlock) (capacity : Nat) :
    Decidable (PartitionInv chain capacity) := by
  unfold PartitionInv; infer_instance

instance instDecidableNoAdjFree : ∀ (l : List MemBlock), Decidable (NoAdjFree l)
  | [] => by unfold NoAdjFree; infer_instance
  | [_] => by unfold NoAdjFree; infer_instance
  | a :: b :: rest => by
    unfold NoAdjFree
    have := instDecidableNoAdjFree (b :: rest)
    infer_instance

/-- Coalescing as the specification words it, second step: the freed descriptor `cur` is
merged into the descriptor immediately before it (the last one of `pre`) when that one is
free; the merged descriptor keeps the lower offset and has the sum of the two sizes. -/
def into_preceding : List MemBlock → MemBlock → List MemBlock → List MemBlock
  | [], cur, post => cur :: post
  | [p], cur, post =>
    if p.is_free then { offset := p.offset, size := p.size + cur.size, is_free := true } :: post
    else p :: cur :: post
  | a :: b :: pre, cur, post => a :: into_preceding (b :: pre) cur post

/-- Coalescing as the specification words it: in the chain `pre ++ d :: post` the descriptor
`d` is marked free, merged with the descriptor immediately after it when that one is free
(sum of the sizes, offset of `d`), and then merged into the descriptor immediately before it
when that one is free. -/
def coalesced (pre : List MemBlock) (d : MemBlock) (post : List MemBlock) : List MemBlock :=
  match post with
  | [] => into_preceding pre { d with is_free := true } []
  | n :: post2 =>
    if n.is_free then
      into_preceding pre { offset := d.offset, size := d.size + n.size, is_free := true } post2
    else into_preceding pre { d with is_free := true } (n :: post2)

/-- Offsets of the non-free descriptors of a chain, in chain order. -/
def live (l : List MemBlock) : List Nat :=
  (l.filter fun b => !b.is_free).map fun b => b.offset

/-- Pointers returned by a sequence of `mem_alloc` calls (size, descriptor storage granted)
and the state after them. -/
def alloc_all (s : State) : List (Nat × Bool) → List (Option Nat) × State
  | [] => ([], s)
  | r :: reqs =>
    ((mem_alloc s r.1 r.2).1 :: (alloc_all (mem_alloc s r.1 r.2).2 reqs).1,
      (alloc_all (mem_alloc s r.1 r.2).2 reqs).2)

/-- State after calling `mem_free` on each pointer of a list, in list order. -/
def free_all (s : State) (ptrs : List (Option Nat)) : State := ptrs.foldl mem_free s

/-- Chains with the partition invariant, no two adjacent free descriptors and no empty
descriptor. -/
def WellFormed (l : List MemBlock) (capacity : Nat) : Prop :=
  PartitionInv l capacity ∧ NoAdjFree l ∧ ∀ b ∈ l, 0 < b.size

instance instDecidableWellFormed (l : List MemBlock) (capacity : Nat) :
    Decidable (WellFormed l capacity) := by
  unfold WellFormed; infer_instance

/-- The descriptors are linked by strictly increasing offset (first invariant of the data
model). -/
abbrev StrictOffsets (l : List MemBlock) : Prop :=
  l.Pairwise fun a b => a.offset < b.offset

/-- Offsets of the live pointers after one public call made in state `s`, where `held` are the
live pointers before it: a pointer becomes live when `mem_alloc` or `mem_resize` returns it for
a size `> 0`; it stops being live when it is passed to `mem_free`, to `mem_resize` with size 0,
or to a `mem_resize` that returns a non-null pointer (which is live in its place). -/
def held_step (s : State) (held : List Nat) : Op → List Nat
  | Op.alloc size ok =>
    if size = 0 then held
    else
      match (mem_alloc s size ok).1 with
      | some q => q :: held
      | none => held
  | Op.free none => held
  | Op.free (some o) => held.filter fun p => decide (p ≠ o)
  | Op.resize none size ok =>
    if size = 0 then held
    else
      match (mem_resize s none size ok).1 with
      | some q => q :: held
      | none => held
  | Op.resize (some o) size ok =>
    if size = 0 then held.filter fun p => decide (p ≠ o)
    else
      match (mem_resize s (some o) size ok).1 with
      | some q => q :: held.filter fun p => decide (p ≠ o)
      | none => held

/-- Live pointers after a sequence of public calls. -/
def held_after (s : State) (held : List Nat) : List Op → List Nat
  | [] => held
  | op :: ops => held_after (step s op) (held_step s held op) ops

/-- The call made in state `s` does not resize a stale pointer: a non-null pointer resized to
a size `> 0` has no free descriptor at its offset. -/
def proper_step (s : State) : Op → Bool
  | Op.resize (some o) size _ =>
    decide (size = 0) || s.block_list.all fun b => !(decide (b.offset = o) && b.is_free)
  | _ => true

/-- No call of the sequence, started in state `s`, resizes a stale pointer. -/
def proper_run (s : State) : List Op → Bool
  | [] => true
  | op :: ops => proper_step s op && proper_run (step s op) ops

/-- Invariant behind the live-pointer property: partition, strictly increasing offsets, and
the live pointers are exactly the offsets of the non-free descriptors. -/
def HeldInv (chain : List MemBlock) (held : List Nat) (capacity : Nat) : Prop :=
  PartitionInv chain capacity ∧ StrictOffsets chain ∧ ∀ p, p ∈ held ↔ p ∈ live chain

/-- Initial values of the global variables: `memory_pool = NULL`, `pool_size = 0`,
`block_list = NULL`. -/
def uninitialized : State :=
  { memory_pool := none, pool_size := 0, block_list := [] }

/-- Byte of the pool at offset `i` (`none` when there is no pool or `i` is outside it). -/
def pool_byte (s : State) (i : Nat) : Option Nat :=
  s.memory_pool.bind fun pool => pool[i]?

/-- Postcondition of the copy fallback in the words of the specification, for the call
`mem_resize(p, new_size)` made in state `s` (descriptor storage available) on the block at
offset `p` of size `L`: the call returns an offset `q` different from `p`; afterwards exactly one descriptor is at offset `q`
and it is the non-free descriptor `(q, new_size)`; the first `min(L, new_size)` bytes at `q`
are the bytes that were at `p` in `s`; and the old block is freed, so that every descriptor
left at offset `p` is free. -/
def copy_fallback_post (s : State) (p L new_size : Nat) : Prop :=
  ∃ q, (mem_resize s (some p) new_size true).1 = some q ∧ q ≠ p ∧
    (mem_resize s (some p) new_size true).2.block_list.filter
        (fun b => decide (b.offset = q)) = [⟨q, new_size, false⟩] ∧
    (∀ k, k < min L new_size →
      pool_byte (mem_resize s (some p) new_size true).2 (q + k) = pool_byte s (p + k)) ∧
    (∀ b ∈ (mem_resize s (some p) new_size true).2.block_list,
      b.offset = p → b.is_free = true)

/-! ## Arithmetic and tiling lemmas -/

theorem wadd_eq {a b : Nat} (h : a + b < WORD) : wadd a b = a + b :=
  Nat.mod_eq_of_lt h

theorem Tiles_le : ∀ (l : List MemBlock) (start stop : Nat), Tiles start l stop → start ≤ stop
  | [], start, stop, h => by simp [Tiles] at h; omega
  | b :: rest, start, stop, h => by
    simp only [Tiles] at h
    have := Tiles_le rest _ _ h.2
    omega

theorem Tiles_append : ∀ (l1 l2 : List MemBlock) (start stop : Nat),
    Tiles start (l1 ++ l2) stop ↔ ∃ mid, Tiles start l1 mid ∧ Tiles mid l2 stop
  | [], l2, start, stop => by simp [Tiles]
  | b :: rest, l2, start, stop => by
    have ih := Tiles_append rest l2 (b.offset + b.size) stop
    show (b.offset = start ∧ Tiles (b.offset + b.size) (rest ++ l2) stop) ↔
      ∃ mid, (b.offset = start ∧ Tiles (b.offset + b.size) rest mid) ∧ Tiles mid l2 stop
    rw [ih]
    constructor
    · rintro ⟨h1, mid, h2, h3⟩
      exact ⟨mid, ⟨h1, h2⟩, h3⟩
    · rintro ⟨mid, ⟨h1, h2⟩, h3⟩
      exact ⟨h1, mid, h2, h3⟩

/-! ## `mem_alloc` keeps the tiling -/

theorem alloc_scan_tiles (size : Nat) (ok : Bool) (stop : Nat) (hstop : stop < WORD) :
    ∀ (l : List MemBlock) (start : Nat), Tiles start l stop →
      Tiles start (alloc_scan size ok l).2 stop
  | [], start, h => by simpa [alloc_scan] using h
  | cur :: rest, start, h => by
    have hle := Tiles_le rest _ _ (by simpa [Tiles] using h.2)
    simp only [Tiles] at h
    unfold alloc_scan
    split_ifs with h1 h2 h3
    · have hw : wadd cur.offset size = cur.offset + size := wadd_eq (by omega)
      simp only [Tiles, hw]
      refine ⟨h.1, trivial, ?_⟩
      have : cur.offset + size + (cur.size - size) = cur.offset + cur.size := by omega
      rw [this]; exact h.2
    · simpa [Tiles] using h
    · simpa [Tiles] using h
    · simp only [Tiles]
      exact ⟨h.1, alloc_scan_tiles size ok stop hstop rest _ h.2⟩

theorem alloc_scan_ne_nil (size : Nat) (ok : Bool) :
    ∀ (l : List MemBlock), l ≠ [] → (alloc_scan size ok l).2 ≠ []
  | [], h => absurd rfl h
  | cur :: rest, _ => by
    unfold alloc_scan
    split_ifs <;> simp

theorem mem_alloc_partition (s : State) (size : Nat) (ok : Bool) (capacity : Nat)
    (hcap : capacity < WORD) (h : PartitionInv s.block_list capacity) :
    PartitionInv (mem_alloc s size ok).2.block_list capacity := by
  unfold mem_alloc
  split_ifs
  · exact h
  · exact ⟨alloc_scan_ne_nil size ok _ h.1, alloc_scan_tiles size ok capacity hcap _ _ h.2⟩

/-! ## `mem_free` keeps the tiling -/

theorem merge_next_tiles (cur : MemBlock) (stop : Nat) (hstop : stop < WORD) :
    ∀ (rest : List MemBlock) (start : Nat), Tiles start (cur :: rest) stop →
      Tiles start ((merge_next cur rest).1 :: (merge_next cur rest).2) stop ∧
        (merge_next cur rest).1.offset = cur.offset
  | [], start, h => by simpa [merge_next] using h
  | nxt :: rest2, start, h => by
    simp only [Tiles] at h
    have hle := Tiles_le rest2 _ _ h.2.2
    simp only [merge_next]
    split_ifs with h1
    · have hw : wadd cur.size nxt.size = cur.size + nxt.size := wadd_eq (by omega)
      simp only [Tiles, hw, and_true]
      refine ⟨h.1, ?_⟩
      have : cur.offset + (cur.size + nxt.size) = nxt.offset + nxt.size := by omega
      rw [this]; exact h.2.2
    · simpa [Tiles] using h

theorem free_scan_tiles (offset : Nat) (stop : Nat) (hstop : stop < WORD) :
    ∀ (l : List MemBlock) (prev : Option MemBlock) (start : Nat),
      Tiles start (prev.toList ++ l) stop → Tiles start (free_scan offset prev l) stop
  | [], prev, start, h => by simpa [free_scan] using h
  | cur :: rest, prev, start, h => by
    unfold free_scan
    split_ifs with h1 h2
    · exact h
    · cases prev with
      | none =>
        exact (merge_next_tiles _ stop hstop rest start (by simpa [Tiles] using h)).1
      | some p =>
        simp only [Option.toList, List.singleton_append, Tiles] at h
        have hm := merge_next_tiles { cur with is_free := true } stop hstop rest
          (p.offset + p.size) (by simpa [Tiles] using h.2)
        have hle := Tiles_le _ _ _ hm.1
        simp only [Tiles] at hm
        have hle2 := Tiles_le _ _ _ hm.1.2
        dsimp only
        split_ifs with h3
        · have hw : wadd p.size (merge_next { cur with is_free := true } rest).1.size
              = p.size + (merge_next { cur with is_free := true } rest).1.size :=
            wadd_eq (by omega)
          simp only [Tiles, hw]
          refine ⟨h.1, ?_⟩
          have : p.offset + (p.size + (merge_next { cur with is_free := true } rest).1.size)
              = (merge_next { cur with is_free := true } rest).1.offset
                + (merge_next { cur with is_free := true } rest).1.size := by omega
          rw [this]; exact hm.1.2
        · simp only [Tiles]
          exact ⟨h.1, hm.1⟩
    · cases prev with
      | none =>
        simp only [Option.toList, List.nil_append] at h ⊢
        exact free_scan_tiles offset stop hstop rest (some cur) start (by simpa using h)
      | some p =>
        simp only [Option.toList, List.singleton_append, Tiles] at h ⊢
        exact ⟨h.1, free_scan_tiles offset stop hstop rest (some cur) _
          (by simpa [Tiles] using h.2)⟩

theorem free_scan_ne_nil (offset : Nat) :
    ∀ (l : List MemBlock) (prev : Option MemBlock),
      prev.toList ++ l ≠ [] → free_scan offset prev l ≠ []
  | [], prev, h => by simpa [free_scan] using h
  | cur :: rest, prev, _ => by
    unfold free_scan
    split_ifs with h1 h2
    · simp
    · cases prev with
      | none => simp
      | some p => dsimp only; split_ifs <;> simp
    · cases prev with
      | none => simpa using free_scan_ne_nil offset rest (some cur) (by simp)
      | some p => simp

theorem mem_free_partition (s : State) (ptr : Option Nat) (capacity : Nat)
    (hcap : capacity < WORD) (h : PartitionInv s.block_list capacity) :
    PartitionInv (mem_free s ptr).block_list capacity := by
  cases ptr with
  | none => exact h
  | some offset =>
    exact ⟨free_scan_ne_nil offset _ none (by simpa using h.1),
      free_scan_tiles offset capacity hcap _ none 0 (by simpa using h.2)⟩

/-! ## `mem_resize` keeps the tiling -/

theorem resize_split_tiles (cur : MemBlock) (size : Nat) (ok : Bool) (ptr : Nat)
    (rest : List MemBlock) (start stop : Nat) (hstop : stop < WORD)
    (h : Tiles start (cur :: rest) stop) (ret : Option Nat) (chain : List MemBlock)
    (hr : resize_split cur size ok ptr rest = ResizeScan.done ret chain) :
    Tiles start chain stop ∧ chain ≠ [] := by
  have hle := Tiles_le rest _ _ (by simpa [Tiles] using h.2)
  simp only [Tiles] at h
  unfold resize_split at hr
  split_ifs at hr with h1 h2
  · simp only [ResizeScan.done.injEq] at hr
    obtain ⟨-, rfl⟩ := hr
    have hw : wadd cur.offset size = cur.offset + size := wadd_eq (by omega)
    simp only [Tiles, hw, ne_eq, reduceCtorEq, not_false_eq_true, and_true]
    refine ⟨h.1, trivial, ?_⟩
    have : cur.offset + size + (cur.size - size) = cur.offset + cur.size := by omega
    rw [this]; exact h.2
  · simp only [ResizeScan.done.injEq] at hr
    obtain ⟨-, rfl⟩ := hr
    simpa [Tiles] using h
  · simp only [ResizeScan.done.injEq] at hr
    obtain ⟨-, rfl⟩ := hr
    simpa [Tiles] using h

theorem resize_scan_tiles (offset size : Nat) (ok : Bool) (stop : Nat) (hstop : stop < WORD) :
    ∀ (l : List MemBlock) (start : Nat) (ret : Option Nat) (chain : List MemBlock),
      Tiles start l stop → resize_scan offset size ok l = ResizeScan.done ret chain →
      Tiles start chain stop ∧ chain ≠ []
  | [], start, ret, chain, _, hr => by simp [resize_scan] at hr
  | cur :: rest, start, ret, chain, h, hr => by
    unfold resize_scan at hr
    split_ifs at hr with h1 h2
    · exact resize_split_tiles cur size ok offset rest start stop hstop h ret chain hr
    · cases rest with
      | nil => simp at hr
      | cons nxt rest2 =>
        dsimp only at hr
        split_ifs at hr with h3
        have h4 := h
        simp only [Tiles] at h4
        have hle := Tiles_le rest2 _ _ h4.2.2
        have hw : wadd cur.size nxt.size = cur.size + nxt.size := wadd_eq (by omega)
        refine resize_split_tiles _ size ok offset rest2 start stop hstop ?_ ret chain hr
        simp only [Tiles, hw]
        refine ⟨h4.1, ?_⟩
        have : cur.offset + (cur.size + nxt.size) = nxt.offset + nxt.size := by omega
        rw [this]; exact h4.2.2
    · cases hrec : resize_scan offset size ok rest with
      | done ret2 chain2 =>
        rw [hrec] at hr
        simp only [ResizeScan.done.injEq] at hr
        obtain ⟨-, rfl⟩ := hr
        simp only [Tiles] at h
        have ih := resize_scan_tiles offset size ok stop hstop rest _ ret2 chain2 h.2 hrec
        simp only [Tiles, ne_eq, reduceCtorEq, not_false_eq_true, and_true]
        exact ⟨h.1, ih.1⟩
      | moved old_size => rw [hrec] at hr; simp at hr
      | missing => rw [hrec] at hr; simp at hr

theorem mem_resize_partition (s : State) (ptr : Option Nat) (size : Nat) (ok : Bool)
    (capacity : Nat) (hcap : capacity < WORD) (h : PartitionInv s.block_list capacity) :
    PartitionInv (mem_resize s ptr size ok).2.block_list capacity := by
  cases ptr with
  | none => exact mem_alloc_partition s size ok capacity hcap h
  | some offset =>
    simp only [mem_resize]
    split_ifs with h0
    · exact mem_free_partition s (some offset) capacity hcap h
    · cases hscan : resize_scan offset size ok s.block_list with
      | done ret chain =>
        have := resize_scan_tiles offset size ok capacity hcap _ 0 ret chain h.2 hscan
        exact ⟨this.2, this.1⟩
      | missing => exact h
      | moved old_size =>
        have ha := mem_alloc_partition s size ok capacity hcap h
        cases hal : mem_alloc s size ok with
        | mk r s1 =>
          rw [hal] at ha
          cases r with
          | none => exact ha
          | some new_off =>
            exact mem_free_partition
              { s1 with memory_pool := s1.memory_pool.map fun pool =>
                  memcpy pool new_off offset old_size }
              (some offset) capacity hcap ha

theorem step_partition (s : State) (op : Op) (capacity : Nat) (hcap : capacity < WORD)
    (h : PartitionInv s.block_list capacity) : PartitionInv (step s op).block_list capacity := by
  cases op with
  | alloc size ok => exact mem_alloc_partition s size ok capacity hcap h
  | free ptr => exact mem_free_partition s ptr capacity hcap h
  | resize ptr size ok => exact mem_resize_partition s ptr size ok capacity hcap h

theorem run_partition (capacity : Nat) (hcap : capacity < WORD) :
    ∀ (ops : List Op) (s : State), PartitionInv s.block_list capacity →
      PartitionInv (run s ops).block_list capacity
  | [], _, h => h
  | op :: ops, s, h => run_partition capacity hcap ops (step s op) (step_partition s op capacity hcap h)

theorem mem_init_partition (capacity : Nat) (junk : Nat → Nat) :
    PartitionInv (mem_init capacity junk).block_list capacity := by
  simp [mem_init, PartitionInv, Tiles]

/-! ## Claims -/

/-- C1 (partition invariant): after `mem_init capacity`, whatever finite sequence of
`mem_alloc`, `mem_free` and `mem_resize` calls is made (any pointers, any sizes, descriptor
storage granted or refused), the descriptor chain is non-empty, starts at offset 0, every
descriptor ends where the next one starts and the last one ends at `capacity`. -/
theorem C1_partition_invariant (capacity : Nat) (junk : Nat → Nat) (ops : List Op)
    (hcap : capacity < WORD) :
    PartitionInv (run (mem_init capacity junk) ops).block_list capacity :=
  run_partition capacity hcap ops _ (mem_init_partition capacity junk)

/-- Witness of C1 on a run that allocates, shrinks, grows, moves and frees blocks. -/
theorem C1_partition_invariant_witness :
    100 < WORD ∧
    PartitionInv (run (mem_init 100 fun _ => 0)
      [Op.alloc 50 true, Op.alloc 10 true, Op.resize (some 0) 20 true,
       Op.resize (some 50) 40 true, Op.resize (some 0) 60 true,
       Op.free (some 50)]).block_list 100 :=
  ⟨by decide, C1_partition_invariant 100 (fun _ => 0) _ (by decide)⟩

/-- C2 (no-adjacent-free invariant), evaluated on the run `mem_init(100)`,
`p = mem_alloc(50)`, `mem_resize(p, 20)`: the shrink branch of `mem_resize` splits off the
free remainder `[20, 50)` in front of the free block `[50, 100)` and does not merge them, so
the reached chain has two consecutive free descriptors. -/
theorem C2_resize_shrink_breaks_no_adjacent_free :
    (run (mem_init 100 fun _ => 0) [Op.alloc 50 true, Op.resize (some 0) 20 true]).block_list
        = [⟨0, 20, false⟩, ⟨20, 30, true⟩, ⟨50, 50, true⟩] ∧
      ¬ NoAdjFree
        (run (mem_init 100 fun _ => 0) [Op.alloc 50 true, Op.resize (some 0) 20 true]).block_list := by
  decide

/-! ### First fit -/

theorem alloc_scan_some (size : Nat) (ok : Bool) (o : Nat) :
    ∀ (l : List MemBlock), (alloc_scan size ok l).1 = some o →
      ∃ pre d post, l = pre ++ d :: post ∧ d.offset = o ∧ d.is_free = true ∧ size ≤ d.size ∧
        ∀ b ∈ pre, ¬ (b.is_free = true ∧ size ≤ b.size)
  | [], h => by simp [alloc_scan] at h
  | cur :: rest, h => by
    unfold alloc_scan at h
    by_cases h1 : cur.is_free = true ∧ cur.size ≥ size
    · refine ⟨[], cur, rest, rfl, ?_, h1.1, h1.2, by simp⟩
      rw [if_pos h1] at h
      split_ifs at h <;> simpa using h
    · rw [if_neg h1] at h
      obtain ⟨pre, d, post, hl, hd⟩ := alloc_scan_some size ok o rest h
      refine ⟨cur :: pre, d, post, by simp [hl], hd.1, hd.2.1, hd.2.2.1, ?_⟩
      intro b hb
      rcases List.mem_cons.1 hb with rfl | hb
      · exact h1
      · exact hd.2.2.2 b hb

theorem alloc_scan_select (size : Nat) (ok : Bool) (d : MemBlock) (post : List MemBlock)
    (hfree : d.is_free = true) (hfit : size ≤ d.size) :
    ∀ (pre : List MemBlock), (∀ b ∈ pre, ¬ (b.is_free = true ∧ size ≤ b.size)) →
      alloc_scan size ok (pre ++ d :: post) =
        ((alloc_scan size ok (d :: post)).1, pre ++ (alloc_scan size ok (d :: post)).2)
  | [], _ => by simp
  | b :: pre, h => by
    have hb : ¬ (b.is_free = true ∧ b.size ≥ size) := h b (by simp)
    have ih := alloc_scan_select size ok d post hfree hfit pre
      (fun x hx => h x (List.mem_cons_of_mem _ hx))
    rw [List.cons_append, alloc_scan, if_neg hb, ih]
    simp

theorem alloc_scan_none_of_no_fit (size : Nat) (ok : Bool) :
    ∀ (l : List MemBlock), (∀ b ∈ l, ¬ (b.is_free = true ∧ size ≤ b.size)) →
      alloc_scan size ok l = (none, l)
  | [], _ => rfl
  | b :: rest, h => by
    have hb : ¬ (b.is_free = true ∧ b.size ≥ size) := h b (by simp)
    rw [alloc_scan, if_neg hb,
      alloc_scan_none_of_no_fit size ok rest (fun x hx => h x (List.mem_cons_of_mem _ hx))]

theorem alloc_zero_scan_none :
    ∀ (l : List MemBlock), (∀ b ∈ l, b.is_free = false) → alloc_zero_scan l = none
  | [], _ => rfl
  | b :: rest, h => by
    have hb : b.is_free = false := h b (by simp)
    simp [alloc_zero_scan, hb,
      alloc_zero_scan_none rest (fun x hx => h x (List.mem_cons_of_mem _ hx))]

theorem no_fit_of_alloc_scan_none (size : Nat) :
    ∀ (l : List MemBlock), (alloc_scan size true l).1 = none →
      ∀ b ∈ l, ¬ (b.is_free = true ∧ size ≤ b.size)
  | [], _ => by simp
  | cur :: rest, h => by
    unfold alloc_scan at h
    by_cases h1 : cur.is_free = true ∧ cur.size ≥ size
    · rw [if_pos h1] at h
      simp only [if_true] at h
      split_ifs at h
    · rw [if_neg h1] at h
      intro b hb
      rcases List.mem_cons.1 hb with rfl | hb
      · exact h1
      · exact no_fit_of_alloc_scan_none size rest h b hb

/-- C3 (first fit): when `mem_alloc size` with `size > 0` returns the pointer at offset `o`,
the chain before the call splits as `pre ++ d :: post` where `d` is at offset `o`, free and of
size at least `size`, and every descriptor of `pre` (those scanned before `d`) is non-free or
too small; when the chain is linked in ascending offset order, this covers every descriptor
at an offset smaller than `o`. -/
theorem C3_first_fit (s : State) (size : Nat) (ok : Bool) (o : Nat) (hsize : 0 < size)
    (hret : (mem_alloc s size ok).1 = some o) :
    ∃ pre d post, s.block_list = pre ++ d :: post ∧
      d.offset = o ∧ d.is_free = true ∧ size ≤ d.size ∧
      (∀ b ∈ pre, ¬ (b.is_free = true ∧ size ≤ b.size)) ∧
      (s.block_list.Pairwise (fun a b => a.offset ≤ b.offset) →
        ∀ b ∈ s.block_list, b.offset < o → ¬ (b.is_free = true ∧ size ≤ b.size)) := by
  have hne : size ≠ 0 := by omega
  simp only [mem_alloc, if_neg hne] at hret
  obtain ⟨pre, d, post, hl, hdo, hdf, hds, hpre⟩ := alloc_scan_some size ok o _ hret
  refine ⟨pre, d, post, hl, hdo, hdf, hds, hpre, ?_⟩
  intro hsorted b hb hlt
  rw [hl] at hsorted hb
  rcases List.mem_append.1 hb with hb | hb
  · exact hpre b hb
  · rcases List.mem_cons.1 hb with rfl | hb
    · omega
    · have := (List.pairwise_cons.1 (List.pairwise_append.1 hsorted).2.1).1 b hb
      omega

/-- Witness of C3: free blocks of sizes 10 and 20 at offsets 0 and 10; `mem_alloc(5)` returns
offset 0. -/
theorem C3_first_fit_witness :
    ∃ pre d post, [(⟨0, 10, true⟩ : MemBlock), ⟨10, 20, true⟩] = pre ++ d :: post ∧
      d.offset = 0 ∧ d.is_free = true ∧ 5 ≤ d.size ∧
      (∀ b ∈ pre, ¬ (b.is_free = true ∧ 5 ≤ b.size)) ∧
      (([⟨0, 10, true⟩, ⟨10, 20, true⟩] : List MemBlock).Pairwise
          (fun a b => a.offset ≤ b.offset) →
        ∀ b ∈ ([⟨0, 10, true⟩, ⟨10, 20, true⟩] : List MemBlock),
          b.offset < 0 → ¬ (b.is_free = true ∧ 5 ≤ b.size)) :=
  C3_first_fit ⟨some (List.replicate 30 0), 30, [⟨0, 10, true⟩, ⟨10, 20, true⟩]⟩ 5 true 0
    (by decide) (by decide)

/-- C4 (allocate postcondition): let `d` be the descriptor that `mem_alloc size` selects
(`size > 0`, `d` free with `size ≤ d.size`, everything before it in the chain non-free or too
small).  If `d.size = size` the call returns `d.offset` and only marks `d` non-free.  If
`d.size > size` (with `d.offset + size` a `size_t` value and the new descriptor allocated) the
call returns `d.offset` and replaces `d` by the non-free descriptor `(d.offset, size)` followed
by the free descriptor `(d.offset + size, d.size - size)`.  Nothing else in the state
changes. -/
theorem C4_alloc_postcondition (s : State) (size : Nat) (pre post : List MemBlock)
    (d : MemBlock) (hsize : 0 < size) (hchain : s.block_list = pre ++ d :: post)
    (hpre : ∀ b ∈ pre, ¬ (b.is_free = true ∧ size ≤ b.size))
    (hfree : d.is_free = true) (hfit : size ≤ d.size) :
    (d.size = size → ∀ ok, mem_alloc s size ok =
      (some d.offset, { s with block_list := pre ++ { d with is_free := false } :: post })) ∧
    (size < d.size → d.offset + size < WORD → mem_alloc s size true =
      (some d.offset, { s with block_list :=
        pre ++ ⟨d.offset, size, false⟩ :: ⟨d.offset + size, d.size - size, true⟩ :: post })) := by
  have hne : size ≠ 0 := by omega
  have hc : d.is_free = true ∧ d.size ≥ size := ⟨hfree, hfit⟩
  constructor
  · intro heq ok
    have hgt : ¬ d.size > size := by omega
    simp only [mem_alloc, if_neg hne, hchain, alloc_scan_select size ok d post hfree hfit pre hpre]
    simp only [alloc_scan, if_pos hc, if_neg hgt]
  · intro hlt hword
    have hgt : d.size > size := hlt
    have hw : wadd d.offset size = d.offset + size := wadd_eq hword
    simp only [mem_alloc, if_neg hne, hchain,
      alloc_scan_select size true d post hfree hfit pre hpre]
    simp only [alloc_scan, if_pos hc, if_pos hgt, if_true, hw]

/-- Witness of C4: `mem_init(100); mem_alloc(30)` gives `[non-free 0..30, free 30..100]`. -/
theorem C4_alloc_postcondition_witness :
    mem_alloc (mem_init 100 fun _ => 0) 30 true =
      (some 0, { mem_init 100 (fun _ => 0) with
        block_list := [⟨0, 30, false⟩, ⟨0 + 30, 100 - 30, true⟩] }) :=
  (C4_alloc_postcondition (mem_init 100 fun _ => 0) 30 [] [] ⟨0, 100, true⟩ (by decide) rfl
    (by simp) rfl (by decide)).2 (by decide) (by decide)

/-- C5 (exhaustion): if no free descriptor has size at least `size`, `mem_alloc size` returns
null and leaves the whole state (chain and pool bytes) as it was; conversely, for `size > 0`
and with descriptor storage available, a null result means that no free descriptor has size
at least `size`. -/
theorem C5_exhaustion (s : State) (size : Nat) :
    ((∀ b ∈ s.block_list, ¬ (b.is_free = true ∧ size ≤ b.size)) →
        ∀ ok, mem_alloc s size ok = (none, s)) ∧
    (0 < size → (mem_alloc s size true).1 = none →
        ∀ b ∈ s.block_list, ¬ (b.is_free = true ∧ size ≤ b.size)) := by
  constructor
  · intro h ok
    unfold mem_alloc
    split_ifs with h0
    · subst h0
      rw [alloc_zero_scan_none s.block_list (fun b hb => by simpa using h b hb)]
    · rw [alloc_scan_none_of_no_fit size ok _ h]
  · intro hpos hret
    have hne : size ≠ 0 := by omega
    simp only [mem_alloc, if_neg hne] at hret
    exact no_fit_of_alloc_scan_none size _ hret

/-- Witness of C5: in `[non-free 0..30, free 30..100]` a request of 80 bytes fails and
changes nothing; after `mem_init(100)` a null result for 200 bytes means nothing fits. -/
theorem C5_exhaustion_witness :
    mem_alloc ⟨some (List.replicate 100 0), 100, [⟨0, 30, false⟩, ⟨30, 70, true⟩]⟩ 80 true
        = (none, ⟨some (List.replicate 100 0), 100, [⟨0, 30, false⟩, ⟨30, 70, true⟩]⟩) ∧
      ∀ b ∈ (mem_init 100 fun _ => 0).block_list, ¬ (b.is_free = true ∧ 200 ≤ b.size) :=
  ⟨(C5_exhaustion ⟨some (List.replicate 100 0), 100, [⟨0, 30, false⟩, ⟨30, 70, true⟩]⟩ 80).1
      (by decide) true,
    (C5_exhaustion (mem_init 100 fun _ => 0) 200).2 (by decide) (by decide)⟩

/-! ### `mem_free` -/

theorem NoAdjFree_tail {a : MemBlock} {l : List MemBlock} (h : NoAdjFree (a :: l)) :
    NoAdjFree l := by
  cases l with
  | nil => trivial
  | cons b rest => exact h.2

theorem NoAdjFree_head_congr {a a2 : MemBlock} {l : List MemBlock}
    (hflag : a2.is_free = a.is_free) (h : NoAdjFree (a :: l)) : NoAdjFree (a2 :: l) := by
  cases l with
  | nil => trivial
  | cons b rest => exact ⟨by rw [hflag]; exact h.1, h.2⟩

theorem NoAdjFree_append_left : ∀ (l1 l2 : List MemBlock), NoAdjFree (l1 ++ l2) → NoAdjFree l1
  | [], _, _ => trivial
  | [_], _, _ => trivial
  | a :: b :: rest, l2, h => by
    have h2 : NoAdjFree (a :: b :: (rest ++ l2)) := h
    exact ⟨h2.1, NoAdjFree_append_left (b :: rest) l2 h2.2⟩

theorem NoAdjFree_append_right : ∀ (l1 l2 : List MemBlock), NoAdjFree (l1 ++ l2) → NoAdjFree l2
  | [], _, h => h
  | a :: rest, l2, h => by
    have h2 : NoAdjFree (a :: (rest ++ l2)) := h
    exact NoAdjFree_append_right rest l2 (NoAdjFree_tail h2)

theorem coalesced_cons_cons (a b : MemBlock) (pre : List MemBlock) (d : MemBlock)
    (post : List MemBlock) :
    coalesced (a :: b :: pre) d post = a :: coalesced (b :: pre) d post := by
  unfold coalesced
  cases post with
  | nil => rfl
  | cons n post2 => dsimp only; split_ifs <;> rfl

theorem free_scan_at_block (d : MemBlock) (post : List MemBlock) (hd : d.is_free = false)
    (stop : Nat) (hstop : stop < WORD) (prev : Option MemBlock) (start : Nat)
    (h : Tiles start (prev.toList ++ d :: post) stop) :
    free_scan d.offset prev (d :: post) = coalesced prev.toList d post := by
  have hd2 : ¬ d.is_free = true := by simp [hd]
  unfold free_scan
  rw [if_pos rfl, if_neg hd2]
  cases prev with
  | none =>
    simp only [Option.toList, List.nil_append] at h
    cases post with
    | nil => simp [merge_next, coalesced, into_preceding]
    | cons n post2 =>
      simp only [Tiles] at h
      have hle := Tiles_le _ _ _ h.2.2
      have hw : wadd d.size n.size = d.size + n.size := wadd_eq (by omega)
      by_cases hn : n.is_free = true <;> simp [merge_next, coalesced, into_preceding, hn, hw]
  | some p =>
    simp only [Option.toList, List.singleton_append] at h
    cases post with
    | nil =>
      simp only [Tiles] at h
      have hw : wadd p.size d.size = p.size + d.size := wadd_eq (by omega)
      by_cases hp : p.is_free = true <;>
        simp [merge_next, coalesced, into_preceding, hp, hw]
    | cons n post2 =>
      simp only [Tiles] at h
      have hle := Tiles_le _ _ _ h.2.2.2
      have hw : wadd d.size n.size = d.size + n.size := wadd_eq (by omega)
      have hw2 : wadd p.size d.size = p.size + d.size := wadd_eq (by omega)
      have hw3 : wadd p.size (d.size + n.size) = p.size + (d.size + n.size) :=
        wadd_eq (by omega)
      by_cases hn : n.is_free = true <;> by_cases hp : p.is_free = true <;>
        simp [merge_next, coalesced, into_preceding, hn, hp, hw, hw2, hw3]

theorem free_scan_coalesced (d : MemBlock) (post : List MemBlock) (hd : d.is_free = false)
    (stop : Nat) (hstop : stop < WORD) :
    ∀ (pre : List MemBlock) (prev : Option MemBlock) (start : Nat),
      Tiles start (prev.toList ++ (pre ++ d :: post)) stop →
      (∀ b ∈ pre, b.offset ≠ d.offset) →
      free_scan d.offset prev (pre ++ d :: post) = coalesced (prev.toList ++ pre) d post
  | [], prev, start, h, _ => by
    simpa using free_scan_at_block d post hd stop hstop prev start (by simpa using h)
  | b :: pre, prev, start, h, hpre => by
    have hb : b.offset ≠ d.offset := hpre b (by simp)
    have hpre2 : ∀ x ∈ pre, x.offset ≠ d.offset := fun x hx => hpre x (List.mem_cons_of_mem _ hx)
    rw [List.cons_append]
    unfold free_scan
    rw [if_neg hb]
    cases prev with
    | none =>
      simp only [Option.toList, List.nil_append] at h ⊢
      exact free_scan_coalesced d post hd stop hstop pre (some b) start (by simpa using h) hpre2
    | some p =>
      simp only [Option.toList, List.singleton_append] at h ⊢
      simp only [List.cons_append, Tiles] at h
      rw [free_scan_coalesced d post hd stop hstop pre (some b) _ (by simpa [Tiles] using h.2)
        hpre2]
      simp only [Option.toList, List.singleton_append]
      rw [coalesced_cons_cons]

theorem into_preceding_head (b : MemBlock) (pre : List MemBlock) (cur : MemBlock)
    (post : List MemBlock) :
    ∃ h t, into_preceding (b :: pre) cur post = h :: t ∧ h.is_free = b.is_free := by
  cases pre with
  | nil =>
    by_cases hb : b.is_free = true
    · refine ⟨{ offset := b.offset, size := b.size + cur.size, is_free := true }, post, ?_, ?_⟩
      · simp only [into_preceding, if_pos hb]
      · simp [hb]
    · refine ⟨b, cur :: post, ?_, rfl⟩
      simp only [into_preceding, if_neg hb]
  | cons c pre2 => exact ⟨b, _, rfl, rfl⟩

theorem into_preceding_NoAdjFree (cur : MemBlock) (post : List MemBlock)
    (hcur : cur.is_free = true) (hpost : NoAdjFree (cur :: post)) :
    ∀ (pre : List MemBlock), NoAdjFree pre → NoAdjFree (into_preceding pre cur post)
  | [], _ => hpost
  | [p], _ => by
    by_cases hp : p.is_free = true
    · simp only [into_preceding, if_pos hp]
      exact NoAdjFree_head_congr (by simp [hcur]) hpost
    · simp only [into_preceding, if_neg hp]
      exact ⟨fun h => hp h.1, hpost⟩
  | a :: b :: pre, h => by
    have ih := into_preceding_NoAdjFree cur post hcur hpost (b :: pre) h.2
    obtain ⟨x, t, hx, hflag⟩ := into_preceding_head b pre cur post
    show NoAdjFree (a :: into_preceding (b :: pre) cur post)
    rw [hx] at ih ⊢
    exact ⟨by rw [hflag]; exact h.1, ih⟩

theorem coalesced_NoAdjFree (pre : List MemBlock) (d : MemBlock) (post : List MemBlock)
    (h : NoAdjFree (pre ++ d :: post)) : NoAdjFree (coalesced pre d post) := by
  have hpre := NoAdjFree_append_left pre _ h
  have hpost := NoAdjFree_tail (NoAdjFree_append_right pre _ h)
  unfold coalesced
  cases post with
  | nil => exact into_preceding_NoAdjFree _ [] rfl trivial pre hpre
  | cons n post2 =>
    dsimp only
    split_ifs with hn
    · exact into_preceding_NoAdjFree _ post2 rfl
        (NoAdjFree_head_congr (by simp [hn]) hpost) pre hpre
    · exact into_preceding_NoAdjFree _ (n :: post2) rfl ⟨fun hh => hn hh.2, hpost⟩ pre hpre

theorem mem_into_preceding (x cur : MemBlock) (post : List MemBlock) :
    ∀ (pre : List MemBlock), x ∈ into_preceding pre cur post →
      x ∈ pre ∨ x = cur ∨ x ∈ post ∨ x.is_free = true
  | [], h => by
    rcases List.mem_cons.1 h with h | h
    · exact Or.inr (Or.inl h)
    · exact Or.inr (Or.inr (Or.inl h))
  | [p], h => by
    by_cases hp : p.is_free = true
    · simp only [into_preceding, if_pos hp, List.mem_cons] at h
      rcases h with h | h
      · exact Or.inr (Or.inr (Or.inr (by rw [h])))
      · exact Or.inr (Or.inr (Or.inl h))
    · simp only [into_preceding, if_neg hp, List.mem_cons] at h
      rcases h with h | h | h
      · exact Or.inl (by simp [h])
      · exact Or.inr (Or.inl h)
      · exact Or.inr (Or.inr (Or.inl h))
  | a :: b :: pre, h => by
    have h2 : x ∈ a :: into_preceding (b :: pre) cur post := h
    rcases List.mem_cons.1 h2 with h3 | h3
    · exact Or.inl (by simp [h3])
    · rcases mem_into_preceding x cur post (b :: pre) h3 with h4 | h4
      · exact Or.inl (List.mem_cons_of_mem _ h4)
      · exact Or.inr h4

theorem mem_coalesced (x : MemBlock) (pre : List MemBlock) (d : MemBlock)
    (post : List MemBlock) (h : x ∈ coalesced pre d post) :
    x ∈ pre ∨ x ∈ post ∨ x.is_free = true := by
  unfold coalesced at h
  cases post with
  | nil =>
    rcases mem_into_preceding x _ _ pre h with h | h | h | h
    · exact Or.inl h
    · exact Or.inr (Or.inr (by rw [h]))
    · exact Or.inr (Or.inl h)
    · exact Or.inr (Or.inr h)
  | cons n post2 =>
    dsimp only at h
    split_ifs at h with hn
    · rcases mem_into_preceding x _ _ pre h with h | h | h | h
      · exact Or.inl h
      · exact Or.inr (Or.inr (by rw [h]))
      · exact Or.inr (Or.inl (List.mem_cons_of_mem _ h))
      · exact Or.inr (Or.inr h)
    · rcases mem_into_preceding x _ _ pre h with h | h | h | h
      · exact Or.inl h
      · exact Or.inr (Or.inr (by rw [h]))
      · exact Or.inr (Or.inl h)
      · exact Or.inr (Or.inr h)

theorem free_scan_noop (offset : Nat) :
    ∀ (l : List MemBlock) (prev : Option MemBlock),
      (∀ d, l.find? (fun b => decide (b.offset = offset)) = some d → d.is_free = true) →
      free_scan offset prev l = prev.toList ++ l
  | [], prev, _ => by simp [free_scan]
  | cur :: rest, prev, h => by
    unfold free_scan
    by_cases hc : cur.offset = offset
    · have hf : cur.is_free = true := h cur (by simp [List.find?_cons, hc])
      rw [if_pos hc, if_pos hf]
    · rw [if_neg hc, free_scan_noop offset rest (some cur)
        (fun d hd => h d (by simpa [List.find?_cons, hc] using hd))]
      simp

theorem mem_free_noop (s : State) (offset : Nat)
    (h : ∀ d, s.block_list.find? (fun b => decide (b.offset = offset)) = some d →
      d.is_free = true) :
    mem_free s (some offset) = s := by
  have := free_scan_noop offset s.block_list none h
  simp only [mem_free, this, Option.toList, List.nil_append]

theorem mem_free_coalesced (s : State) (capacity : Nat) (pre post : List MemBlock)
    (d : MemBlock) (hcap : capacity < WORD) (htiles : Tiles 0 s.block_list capacity)
    (hchain : s.block_list = pre ++ d :: post)
    (hfirst : ∀ b ∈ pre, b.offset ≠ d.offset) (hd : d.is_free = false) :
    mem_free s (some d.offset) = { s with block_list := coalesced pre d post } := by
  have ht : Tiles 0 ((none : Option MemBlock).toList ++ (pre ++ d :: post)) capacity := by
    simpa [hchain] using htiles
  have := free_scan_coalesced d post hd capacity hcap pre none 0 ht hfirst
  simp only [mem_free, hchain, this, Option.toList, List.nil_append]

/-- C6 (free coalesces with both neighbours): in a state whose chain satisfies the partition
and no-adjacent-free invariants, let the pointer designate the non-free descriptor `d` (`d` is
the first descriptor of the chain at that offset).  After `mem_free` the state is the old one
with the chain replaced by `coalesced pre d post`: `d` marked free, merged with the following
descriptor if that was free and with the preceding one if that was free, every other
descriptor unchanged; and the new chain has no two adjacent free descriptors. -/
theorem C6_free_coalesces (s : State) (capacity : Nat) (pre post : List MemBlock)
    (d : MemBlock) (hcap : capacity < WORD) (hpart : PartitionInv s.block_list capacity)
    (hnaf : NoAdjFree s.block_list) (hchain : s.block_list = pre ++ d :: post)
    (hfirst : ∀ b ∈ pre, b.offset ≠ d.offset) (hd : d.is_free = false) :
    mem_free s (some d.offset) = { s with block_list := coalesced pre d post } ∧
      NoAdjFree (coalesced pre d post) := by
  exact ⟨mem_free_coalesced s capacity pre post d hcap hpart.2 hchain hfirst hd,
    coalesced_NoAdjFree pre d post (hchain ▸ hnaf)⟩

/-- Witness of C6: in `[free 0..10, non-free 10..30, free 30..70, non-free 70..100]` freeing
the block at offset 10 merges it with both neighbours into one free block `0..70`. -/
theorem C6_free_coalesces_witness :
    mem_free ⟨some (List.replicate 100 0), 100,
        [⟨0, 10, true⟩, ⟨10, 20, false⟩, ⟨30, 40, true⟩, ⟨70, 30, false⟩]⟩ (some 10)
      = ⟨some (List.replicate 100 0), 100, [⟨0, 70, true⟩, ⟨70, 30, false⟩]⟩ ∧
    NoAdjFree [(⟨0, 70, true⟩ : MemBlock), ⟨70, 30, false⟩] :=
  C6_free_coalesces
    ⟨some (List.replicate 100 0), 100,
      [⟨0, 10, true⟩, ⟨10, 20, false⟩, ⟨30, 40, true⟩, ⟨70, 30, false⟩]⟩
    100 [⟨0, 10, true⟩] [⟨30, 40, true⟩, ⟨70, 30, false⟩] ⟨10, 20, false⟩
    (by decide) (by decide) (by decide) rfl (by decide) rfl

/-- C7 (free is a silent no-op on bad input): `mem_free` returns the state unchanged (chain
and pool bytes) when the pointer is null, when no descriptor has the offset of the pointer
(such as a pointer into the interior of a block), and when the descriptor found at that
offset is already free. -/
theorem C7_free_noop_on_bad_input (s : State) :
    mem_free s none = s ∧
    (∀ off, (∀ b ∈ s.block_list, b.offset ≠ off) → mem_free s (some off) = s) ∧
    (∀ off d, s.block_list.find? (fun b => decide (b.offset = off)) = some d →
      d.is_free = true → mem_free s (some off) = s) := by
  refine ⟨rfl, ?_, ?_⟩
  · intro off h
    have hnone : s.block_list.find? (fun b => decide (b.offset = off)) = none :=
      List.find?_eq_none.2 (fun b hb => by simpa using h b hb)
    have := free_scan_noop off s.block_list none (fun d hd => by rw [hnone] at hd; cases hd)
    simp only [mem_free, this, Option.toList, List.nil_append]
  · intro off d hfind hfree
    have := free_scan_noop off s.block_list none
      (fun d2 hd2 => by rw [hfind] at hd2; cases hd2; exact hfree)
    simp only [mem_free, this, Option.toList, List.nil_append]

/-- Witness of C7 on `[non-free 0..30, free 30..100]`: a pointer into the interior of the
first block (offset 7) and a pointer to the already free block (offset 30). -/
theorem C7_free_noop_on_bad_input_witness :
    mem_free ⟨some (List.replicate 100 0), 100, [⟨0, 30, false⟩, ⟨30, 70, true⟩]⟩ (some 7)
        = ⟨some (List.replicate 100 0), 100, [⟨0, 30, false⟩, ⟨30, 70, true⟩]⟩ ∧
      mem_free ⟨some (List.replicate 100 0), 100, [⟨0, 30, false⟩, ⟨30, 70, true⟩]⟩ (some 30)
        = ⟨some (List.replicate 100 0), 100, [⟨0, 30, false⟩, ⟨30, 70, true⟩]⟩ :=
  ⟨(C7_free_noop_on_bad_input
      ⟨some (List.replicate 100 0), 100, [⟨0, 30, false⟩, ⟨30, 70, true⟩]⟩).2.1 7 (by decide),
    (C7_free_noop_on_bad_input
      ⟨some (List.replicate 100 0), 100, [⟨0, 30, false⟩, ⟨30, 70, true⟩]⟩).2.2 30
      ⟨30, 70, true⟩ (by decide) rfl⟩

/-- C8 (allocate/free round trip), evaluated on the state reached by `mem_init(100)`,
`p = mem_alloc(50)`, `mem_resize(p, 20)`, whose chain is
`[non-free 0..20, free 20..50, free 50..100]`: a free descriptor of size at least 30 exists,
`q = mem_alloc(30)` takes the block `20..50` exactly, and `mem_free(q)` merges it with the
free block `50..100`, so the chain after the round trip differs from the chain before it. -/
theorem C8_round_trip_fails_after_resize_shrink :
    (∃ b ∈ (run (mem_init 100 fun _ => 0)
          [Op.alloc 50 true, Op.resize (some 0) 20 true]).block_list,
        b.is_free = true ∧ 30 ≤ b.size) ∧
      (mem_alloc (run (mem_init 100 fun _ => 0)
          [Op.alloc 50 true, Op.resize (some 0) 20 true]) 30 true).1 = some 20 ∧
      (mem_free
          (mem_alloc (run (mem_init 100 fun _ => 0)
            [Op.alloc 50 true, Op.resize (some 0) 20 true]) 30 true).2
          (some 20)).block_list = [⟨0, 20, false⟩, ⟨20, 80, true⟩] ∧
      (run (mem_init 100 fun _ => 0)
          [Op.alloc 50 true, Op.resize (some 0) 20 true]).block_list
        = [⟨0, 20, false⟩, ⟨20, 30, true⟩, ⟨50, 50, true⟩] := by
  decide

theorem mem_free_twice_of_strict (s : State) (capacity : Nat) (p : Option Nat)
    (hcap : capacity < WORD) (hpart : PartitionInv s.block_list capacity)
    (hstrict : s.block_list.Pairwise (fun a b => a.offset < b.offset)) :
    mem_free (mem_free s p) p = mem_free s p := by
  cases p with
  | none => rfl
  | some o =>
    cases hfind : s.block_list.find? (fun b => decide (b.offset = o)) with
    | none =>
      have h1 : mem_free s (some o) = s :=
        mem_free_noop s o (fun d hd => by rw [hfind] at hd; cases hd)
      rw [h1, h1]
    | some d =>
      by_cases hd : d.is_free = true
      · have h1 : mem_free s (some o) = s :=
          mem_free_noop s o (fun d2 hd2 => by rw [hfind] at hd2; cases hd2; exact hd)
        rw [h1, h1]
      · obtain ⟨hdo, pre, post, hl, hpre⟩ := List.find?_eq_some.1 hfind
        have hdo2 : d.offset = o := by simpa using hdo
        subst hdo2
        have hfirst : ∀ b ∈ pre, b.offset ≠ d.offset := fun b hb => by
          simpa using hpre b hb
        have h1 := mem_free_coalesced s capacity pre post d hcap hpart.2 hl hfirst
          (by simpa using hd)
        rw [h1]
        apply mem_free_noop
        intro d2 hd2
        have hmem : d2 ∈ coalesced pre d post := List.mem_of_find?_eq_some hd2
        have hoff : d2.offset = d.offset := by simpa using List.find?_some hd2
        rcases mem_coalesced d2 pre d post hmem with h | h | h
        · exact absurd hoff (hfirst d2 h)
        · rw [hl] at hstrict
          have := (List.pairwise_cons.1 (List.pairwise_append.1 hstrict).2.1).1 d2 h
          omega
        · exact h

/-! ### Allocating and then freeing everything -/

theorem NoAdjFree_cons_nonfree {a : MemBlock} {l : List MemBlock} (ha : a.is_free = false)
    (h : NoAdjFree l) : NoAdjFree (a :: l) := by
  cases l with
  | nil => trivial
  | cons b rest => exact ⟨by simp [ha], h⟩

theorem alloc_scan_NoAdjFree_cons (size : Nat) (ok : Bool) :
    ∀ (l : List MemBlock) (a : MemBlock), NoAdjFree (a :: l) →
      NoAdjFree (a :: (alloc_scan size ok l).2)
  | [], _, _ => trivial
  | cur :: rest, a, h => by
    unfold alloc_scan
    by_cases h1 : cur.is_free = true ∧ cur.size ≥ size
    · rw [if_pos h1]
      by_cases h2 : cur.size > size
      · rw [if_pos h2]
        cases ok with
        | true =>
          simp only [if_true]
          refine ⟨by simp, by simp, ?_⟩
          exact NoAdjFree_head_congr (by simp [h1.1]) h.2
        | false => simpa using h
      · rw [if_neg h2]
        exact ⟨by simp, NoAdjFree_cons_nonfree rfl (NoAdjFree_tail h.2)⟩
    · rw [if_neg h1]
      exact ⟨h.1, alloc_scan_NoAdjFree_cons size ok rest cur h.2⟩

theorem alloc_scan_NoAdjFree (size : Nat) (ok : Bool) (l : List MemBlock) (h : NoAdjFree l) :
    NoAdjFree (alloc_scan size ok l).2 :=
  NoAdjFree_tail (alloc_scan_NoAdjFree_cons size ok l ⟨0, 0, false⟩
    (NoAdjFree_cons_nonfree rfl h))

theorem alloc_scan_pos (size : Nat) (ok : Bool) (hsize : 0 < size) :
    ∀ (l : List MemBlock), (∀ b ∈ l, 0 < b.size) → ∀ b ∈ (alloc_scan size ok l).2, 0 < b.size
  | [], _ => by simp [alloc_scan]
  | cur :: rest, h => by
    have hcur := h cur (by simp)
    have hrest : ∀ b ∈ rest, 0 < b.size := fun b hb => h b (List.mem_cons_of_mem _ hb)
    unfold alloc_scan
    by_cases h1 : cur.is_free = true ∧ cur.size ≥ size
    · rw [if_pos h1]
      by_cases h2 : cur.size > size
      · rw [if_pos h2]
        cases ok with
        | true =>
          simp only [if_true]
          intro b hb
          simp only [List.mem_cons] at hb
          rcases hb with rfl | rfl | hb
          · exact hsize
          · show 0 < cur.size - size
            omega
          · exact hrest b hb
        | false => simpa using h
      · rw [if_neg h2]
        intro b hb
        simp only [List.mem_cons] at hb
        rcases hb with rfl | hb
        · exact hcur
        · exact hrest b hb
    · rw [if_neg h1]
      intro b hb
      simp only [List.mem_cons] at hb
      rcases hb with rfl | hb
      · exact hcur
      · exact alloc_scan_pos size ok hsize rest hrest b hb

theorem live_cons (b : MemBlock) (l : List MemBlock) :
    live (b :: l) = if b.is_free = true then live l else b.offset :: live l := by
  by_cases hb : b.is_free = true <;> simp [live, List.filter_cons, hb]

theorem live_append (l1 l2 : List MemBlock) : live (l1 ++ l2) = live l1 ++ live l2 := by
  simp [live, List.filter_append]

theorem alloc_scan_live (size : Nat) (ok : Bool) (o : Nat) :
    ∀ (l : List MemBlock), (alloc_scan size ok l).1 = some o →
      (live (alloc_scan size ok l).2).Perm (o :: live l)
  | [], h => by simp [alloc_scan] at h
  | cur :: rest, h => by
    unfold alloc_scan at h ⊢
    by_cases h1 : cur.is_free = true ∧ cur.size ≥ size
    · rw [if_pos h1] at h ⊢
      by_cases h2 : cur.size > size
      · rw [if_pos h2] at h ⊢
        cases ok with
        | true =>
          simp only [if_true, Option.some.injEq] at h ⊢
          simp [live_cons, h1.1, h]
        | false => simp at h
      · rw [if_neg h2] at h ⊢
        simp only [Option.some.injEq] at h
        simp [live_cons, h1.1, h]
    · rw [if_neg h1] at h ⊢
      have ih := alloc_scan_live size ok o rest h
      by_cases hc : cur.is_free = true
      · simpa [live_cons, hc] using ih
      · simp only [live_cons, hc, if_false]
        exact (ih.cons cur.offset).trans (List.Perm.swap o cur.offset (live rest))

theorem Tiles_start_le_block (d : MemBlock) (post : List MemBlock) (stop : Nat) :
    ∀ (pre : List MemBlock) (start : Nat), Tiles start (pre ++ d :: post) stop →
      start ≤ d.offset := by
  intro pre start h
  obtain ⟨mid, h1, h2⟩ := (Tiles_append pre (d :: post) start stop).1 h
  have := Tiles_le pre start mid h1
  simp only [Tiles] at h2
  omega

theorem Tiles_pre_lt (d : MemBlock) (post : List MemBlock) (stop : Nat) :
    ∀ (pre : List MemBlock) (start : Nat), Tiles start (pre ++ d :: post) stop →
      (∀ b ∈ pre, 0 < b.size) → ∀ b ∈ pre, b.offset < d.offset
  | [], _, _, _ => by simp
  | x :: pre, start, h, hpos => by
    have h2 : Tiles start (x :: (pre ++ d :: post)) stop := h
    simp only [Tiles] at h2
    intro b hb
    rcases List.mem_cons.1 hb with rfl | hb
    · have := Tiles_start_le_block d post stop pre _ h2.2
      have := hpos b (by simp)
      omega
    · exact Tiles_pre_lt d post stop pre _ h2.2
        (fun y hy => hpos y (List.mem_cons_of_mem _ hy)) b hb

theorem live_into_preceding (cur : MemBlock) (post : List MemBlock)
    (hcur : cur.is_free = true) :
    ∀ (pre : List MemBlock), live (into_preceding pre cur post) = live pre ++ live post
  | [] => by simp [into_preceding, live_cons, hcur, live]
  | [p] => by
    by_cases hp : p.is_free = true <;> simp [into_preceding, live_cons, hp, hcur, live]
  | a :: b :: pre => by
    have ih := live_into_preceding cur post hcur (b :: pre)
    show live (a :: into_preceding (b :: pre) cur post) = live (a :: b :: pre) ++ live post
    rw [live_cons, ih, live_cons a]
    split_ifs <;> simp

theorem live_coalesced (pre : List MemBlock) (d : MemBlock) (post : List MemBlock) :
    live (coalesced pre d post) = live pre ++ live post := by
  unfold coalesced
  cases post with
  | nil => exact live_into_preceding _ [] rfl pre
  | cons n post2 =>
    dsimp only
    split_ifs with hn
    · rw [live_into_preceding _ post2 rfl pre, live_cons, if_pos hn]
    · exact live_into_preceding _ (n :: post2) rfl pre

theorem into_preceding_pos (cur : MemBlock) (post : List MemBlock) (hcur : 0 < cur.size)
    (hpost : ∀ b ∈ post, 0 < b.size) :
    ∀ (pre : List MemBlock), (∀ b ∈ pre, 0 < b.size) →
      ∀ b ∈ into_preceding pre cur post, 0 < b.size
  | [], _ => by
    intro b hb
    rcases List.mem_cons.1 hb with rfl | hb
    · exact hcur
    · exact hpost b hb
  | [p], hpre => by
    intro b hb
    by_cases hp : p.is_free = true
    · simp only [into_preceding, if_pos hp, List.mem_cons] at hb
      rcases hb with rfl | hb
      · show 0 < p.size + cur.size
        omega
      · exact hpost b hb
    · simp only [into_preceding, if_neg hp, List.mem_cons] at hb
      rcases hb with rfl | rfl | hb
      · exact hpre b (by simp)
      · exact hcur
      · exact hpost b hb
  | a :: c :: pre, h => by
    intro b hb
    have hb2 : b ∈ a :: into_preceding (c :: pre) cur post := hb
    rcases List.mem_cons.1 hb2 with rfl | hb3
    · exact h b (by simp)
    · exact into_preceding_pos cur post hcur hpost (c :: pre)
        (fun y hy => h y (List.mem_cons_of_mem _ hy)) b hb3

theorem coalesced_pos (pre : List MemBlock) (d : MemBlock) (post : List MemBlock)
    (h : ∀ b ∈ pre ++ d :: post, 0 < b.size) : ∀ b ∈ coalesced pre d post, 0 < b.size := by
  have hpre : ∀ b ∈ pre, 0 < b.size := fun b hb => h b (by simp [hb])
  have hd : 0 < d.size := h d (by simp)
  have hpost : ∀ b ∈ post, 0 < b.size := fun b hb => h b (by simp [hb])
  have hd2 : 0 < ({ d with is_free := true } : MemBlock).size := hd
  unfold coalesced
  cases post with
  | nil => exact into_preceding_pos { d with is_free := true } [] hd2 (by simp) pre hpre
  | cons n post2 =>
    dsimp only
    split_ifs with hn
    · refine into_preceding_pos _ post2 ?_ (fun b hb => hpost b (List.mem_cons_of_mem _ hb))
        pre hpre
      show 0 < d.size + n.size
      omega
    · exact into_preceding_pos { d with is_free := true } (n :: post2) hd2 hpost pre hpre

theorem all_free_of_live_nil : ∀ (l : List MemBlock), live l = [] → ∀ b ∈ l, b.is_free = true
  | [], _ => by simp
  | x :: rest, h => by
    rw [live_cons] at h
    by_cases hx : x.is_free = true
    · rw [if_pos hx] at h
      intro b hb
      rcases List.mem_cons.1 hb with rfl | hb
      · exact hx
      · exact all_free_of_live_nil rest h b hb
    · rw [if_neg hx] at h
      cases h

theorem single_block_of_live_nil (l : List MemBlock) (capacity : Nat)
    (hpart : PartitionInv l capacity) (hnaf : NoAdjFree l) (hlive : live l = []) :
    l = [⟨0, capacity, true⟩] := by
  have hfree := all_free_of_live_nil l hlive
  cases l with
  | nil => exact absurd rfl hpart.1
  | cons b rest =>
    cases rest with
    | nil =>
      have ht := hpart.2
      simp only [Tiles] at ht
      have hb := hfree b (by simp)
      cases b with
      | mk o sz f =>
        simp only at ht hb
        obtain ⟨h1, h2⟩ := ht
        subst h1
        subst hb
        simp at h2
        simp [h2]
    | cons c rest2 =>
      exact absurd ⟨hfree b (by simp), hfree c (by simp)⟩ hnaf.1

theorem mem_free_live_wellFormed (s : State) (capacity : Nat) (o : Nat)
    (hcap : capacity < WORD) (hwf : WellFormed s.block_list capacity)
    (ho : o ∈ live s.block_list) :
    WellFormed (mem_free s (some o)).block_list capacity ∧
      (o :: live (mem_free s (some o)).block_list).Perm (live s.block_list) := by
  obtain ⟨hpart, hnaf, hpos⟩ := hwf
  obtain ⟨d, hd, hdo⟩ := List.mem_map.1 ho
  obtain ⟨hdmem, hdfree⟩ := List.mem_filter.1 hd
  have hdf : d.is_free = false := by simpa using hdfree
  obtain ⟨pre, post, hl⟩ := List.append_of_mem hdmem
  subst hdo
  have hlt := Tiles_pre_lt d post capacity pre 0 (hl ▸ hpart.2)
    (fun b hb => hpos b (by rw [hl]; simp [hb]))
  have hfirst : ∀ b ∈ pre, b.offset ≠ d.offset := fun b hb => by
    have := hlt b hb
    omega
  have hfree := mem_free_coalesced s capacity pre post d hcap hpart.2 hl hfirst hdf
  have hp2 := mem_free_partition s (some d.offset) capacity hcap hpart
  rw [hfree] at hp2 ⊢
  refine ⟨⟨hp2, coalesced_NoAdjFree pre d post (hl ▸ hnaf),
    coalesced_pos pre d post (hl ▸ hpos)⟩, ?_⟩
  show (d.offset :: live (coalesced pre d post)).Perm (live s.block_list)
  rw [live_coalesced, hl, live_append, live_cons, if_neg (by simp [hdf])]
  exact List.perm_middle.symm

theorem free_all_single_block (capacity : Nat) (hcap : capacity < WORD) :
    ∀ (order : List (Option Nat)) (s : State), WellFormed s.block_list capacity →
      order.Perm ((live s.block_list).map some) →
      (free_all s order).block_list = [⟨0, capacity, true⟩]
  | [], s, hwf, hperm => by
    have hnil : (live s.block_list).map some = [] := List.Perm.eq_nil hperm.symm
    have hlive : live s.block_list = [] := by simpa using hnil
    exact single_block_of_live_nil s.block_list capacity hwf.1 hwf.2.1 hlive
  | p :: rest, s, hwf, hperm => by
    have hp : p ∈ (live s.block_list).map some := hperm.subset (by simp)
    obtain ⟨o, ho, rfl⟩ := List.mem_map.1 hp
    obtain ⟨hwf2, hperm2⟩ := mem_free_live_wellFormed s capacity o hcap hwf ho
    have h3 : (some o :: rest).Perm
        (some o :: (live (mem_free s (some o)).block_list).map some) :=
      hperm.trans (by simpa using (hperm2.map some).symm)
    exact free_all_single_block capacity hcap rest (mem_free s (some o)) hwf2 h3.cons_inv

theorem mem_alloc_wellFormed (s : State) (size : Nat) (ok : Bool) (capacity : Nat) (o : Nat)
    (hcap : capacity < WORD) (hsize : 0 < size) (hwf : WellFormed s.block_list capacity)
    (hret : (mem_alloc s size ok).1 = some o) :
    WellFormed (mem_alloc s size ok).2.block_list capacity ∧
      (live (mem_alloc s size ok).2.block_list).Perm (o :: live s.block_list) := by
  have hp := mem_alloc_partition s size ok capacity hcap hwf.1
  have hne : size ≠ 0 := by omega
  simp only [mem_alloc, if_neg hne] at hp hret ⊢
  exact ⟨⟨hp, alloc_scan_NoAdjFree size ok _ hwf.2.1, alloc_scan_pos size ok hsize _ hwf.2.2⟩,
    alloc_scan_live size ok o _ hret⟩

theorem alloc_all_wellFormed (capacity : Nat) (hcap : capacity < WORD) :
    ∀ (reqs : List (Nat × Bool)) (s : State), WellFormed s.block_list capacity →
      (∀ r ∈ reqs, 0 < r.1) → (∀ p ∈ (alloc_all s reqs).1, p ≠ none) →
      WellFormed (alloc_all s reqs).2.block_list capacity ∧
        ((alloc_all s reqs).1 ++ (live s.block_list).map some).Perm
          ((live (alloc_all s reqs).2.block_list).map some)
  | [], s, hwf, _, _ => ⟨hwf, by simp [alloc_all]⟩
  | r :: reqs, s, hwf, hpos, hsucc => by
    simp only [alloc_all] at hsucc ⊢
    have hr : 0 < r.1 := hpos r (by simp)
    cases hret : (mem_alloc s r.1 r.2).1 with
    | none => exact absurd hret (hsucc _ (by simp))
    | some o =>
      obtain ⟨hwf1, hperm1⟩ := mem_alloc_wellFormed s r.1 r.2 capacity o hcap hr hwf hret
      obtain ⟨hwf2, hperm2⟩ := alloc_all_wellFormed capacity hcap reqs (mem_alloc s r.1 r.2).2
        hwf1 (fun x hx => hpos x (List.mem_cons_of_mem _ hx))
        (fun x hx => hsucc x (List.mem_cons_of_mem _ hx))
      refine ⟨hwf2, ?_⟩
      refine List.Perm.trans ?_ hperm2
      rw [List.cons_append]
      refine List.Perm.trans ?_ (List.Perm.append_left _ (hperm1.map some).symm)
      simpa using (@List.perm_middle _ (some o)
        (alloc_all (mem_alloc s r.1 r.2).2 reqs).1 ((live s.block_list).map some)).symm

/-- C9 (full coalescing after freeing everything): after `mem_init capacity`, make any
sequence of `mem_alloc` calls with sizes `> 0` that all return a non-null pointer, then call
`mem_free` on every returned pointer, in any order (`order` is a permutation of the returned
pointers): the chain is the single free descriptor `(offset 0, size capacity)`. -/
theorem C9_free_everything_coalesces (capacity : Nat) (junk : Nat → Nat)
    (reqs : List (Nat × Bool)) (order : List (Option Nat)) (hcap : capacity < WORD)
    (hpos : ∀ r ∈ reqs, 0 < r.1)
    (hsucc : ∀ p ∈ (alloc_all (mem_init capacity junk) reqs).1, p ≠ none)
    (hperm : order.Perm (alloc_all (mem_init capacity junk) reqs).1) :
    (free_all (alloc_all (mem_init capacity junk) reqs).2 order).block_list
      = [⟨0, capacity, true⟩] := by
  cases reqs with
  | nil =>
    have hnil : order = [] := List.Perm.eq_nil (by simpa [alloc_all] using hperm)
    subst hnil
    rfl
  | cons r reqs =>
    have hr : 0 < r.1 := hpos r (by simp)
    have hne : r.1 ≠ 0 := by omega
    have hcappos : 0 < capacity := by
      by_contra hzero
      have hfirst := hsucc (mem_alloc (mem_init capacity junk) r.1 r.2).1 (by simp [alloc_all])
      have hno : ¬ r.1 ≤ capacity := by omega
      simp [mem_alloc, hne, mem_init, alloc_scan, hno] at hfirst
    have hwf : WellFormed (mem_init capacity junk).block_list capacity :=
      ⟨mem_init_partition capacity junk, trivial, by simp [mem_init, hcappos]⟩
    obtain ⟨hwf2, hperm2⟩ := alloc_all_wellFormed capacity hcap (r :: reqs) _ hwf hpos hsucc
    refine free_all_single_block capacity hcap order _ hwf2 (hperm.trans ?_)
    simpa [mem_init, live] using hperm2

/-- Witness of C9: `mem_init(100); a = mem_alloc(20); b = mem_alloc(30); mem_free(a);
mem_free(b)` leaves the single free descriptor of 100 bytes. -/
theorem C9_free_everything_coalesces_witness :
    (free_all (alloc_all (mem_init 100 fun _ => 0) [(20, true), (30, true)]).2
        [some 0, some 20]).block_list = [⟨0, 100, true⟩] :=
  C9_free_everything_coalesces 100 (fun _ => 0) [(20, true), (30, true)] [some 0, some 20]
    (by decide) (by decide) (by decide) (by decide)

/-! ### `mem_resize` in place -/

theorem resize_scan_skip (offset size : Nat) (ok : Bool) (l : List MemBlock) :
    ∀ (pre : List MemBlock), (∀ b ∈ pre, b.offset ≠ offset) →
      resize_scan offset size ok (pre ++ l) =
        match resize_scan offset size ok l with
        | ResizeScan.done ret chain => ResizeScan.done ret (pre ++ chain)
        | ResizeScan.moved old_size => ResizeScan.moved old_size
        | ResizeScan.missing => ResizeScan.missing
  | [], _ => by
    rw [List.nil_append]
    cases resize_scan offset size ok l <;> rfl
  | b :: pre, h => by
    have hb : b.offset ≠ offset := h b (by simp)
    have ih := resize_scan_skip offset size ok l pre
      (fun x hx => h x (List.mem_cons_of_mem _ hx))
    have hstep : resize_scan offset size ok (b :: (pre ++ l)) =
        match resize_scan offset size ok (pre ++ l) with
        | ResizeScan.done ret chain => ResizeScan.done ret (b :: chain)
        | ResizeScan.moved old_size => ResizeScan.moved old_size
        | ResizeScan.missing => ResizeScan.missing := by
      conv_lhs => unfold resize_scan
      rw [if_neg hb]
    rw [List.cons_append, hstep, ih]
    cases resize_scan offset size ok l <;> rfl

/-- C12 (resize shrinks in place): let `p` designate the non-free descriptor `d` of size `L`
(`d` is the first descriptor of the chain at that offset) and let `0 < new_size ≤ L`.  If
`new_size = L`, `mem_resize(p, new_size)` returns `p` and the state is unchanged.  If
`new_size < L` (with `d.offset + new_size` a `size_t` value and the new descriptor allocated)
it returns `p` and replaces `d` by the non-free descriptor `(d.offset, new_size)` followed by
the free descriptor `(d.offset + new_size, L - new_size)`; every other descriptor and the
pool bytes are unchanged. -/
theorem C12_resize_shrinks_in_place (s : State) (new_size : Nat) (pre post : List MemBlock)
    (d : MemBlock) (hchain : s.block_list = pre ++ d :: post)
    (hfirst : ∀ b ∈ pre, b.offset ≠ d.offset) (hd : d.is_free = false)
    (hpos : 0 < new_size) (hle : new_size ≤ d.size) :
    (new_size = d.size → ∀ ok, mem_resize s (some d.offset) new_size ok = (some d.offset, s)) ∧
    (new_size < d.size → d.offset + new_size < WORD →
      mem_resize s (some d.offset) new_size true =
        (some d.offset, { s with block_list :=
          pre ++ ⟨d.offset, new_size, false⟩ ::
            ⟨d.offset + new_size, d.size - new_size, true⟩ :: post })) := by
  have hne : new_size ≠ 0 := by omega
  have hge : d.size ≥ new_size := hle
  constructor
  · intro heq ok
    have hgt : ¬ d.size > new_size := by omega
    have hscan : resize_scan d.offset new_size ok (d :: post)
        = ResizeScan.done (some d.offset) (d :: post) := by
      conv_lhs => unfold resize_scan
      rw [if_pos rfl, if_pos hge, resize_split, if_neg hgt]
    simp only [mem_resize, if_neg hne, hchain, resize_scan_skip _ _ _ _ pre hfirst, hscan]
    rw [← hchain]
  · intro hlt hword
    have hgt : d.size > new_size := hlt
    have hw : wadd d.offset new_size = d.offset + new_size := wadd_eq hword
    have hscan : resize_scan d.offset new_size true (d :: post)
        = ResizeScan.done (some d.offset)
            (⟨d.offset, new_size, false⟩ ::
              ⟨d.offset + new_size, d.size - new_size, true⟩ :: post) := by
      conv_lhs => unfold resize_scan
      rw [if_pos rfl, if_pos hge, resize_split, if_pos hgt, if_pos rfl, hw, hd]
    simp only [mem_resize, if_neg hne, hchain, resize_scan_skip _ _ _ _ pre hfirst, hscan]

/-- Witness of C12: in `[non-free 0..50, free 50..100]`, `mem_resize(p, 20)` on the block at
offset 0 gives `[non-free 0..20, free 20..50, free 50..100]`. -/
theorem C12_resize_shrinks_in_place_witness :
    mem_resize ⟨some (List.replicate 100 0), 100, [⟨0, 50, false⟩, ⟨50, 50, true⟩]⟩
        (some 0) 20 true =
      (some 0, ⟨some (List.replicate 100 0), 100,
        [⟨0, 20, false⟩, ⟨0 + 20, 50 - 20, true⟩, ⟨50, 50, true⟩]⟩) :=
  (C12_resize_shrinks_in_place
    ⟨some (List.replicate 100 0), 100, [⟨0, 50, false⟩, ⟨50, 50, true⟩]⟩ 20 []
    [⟨50, 50, true⟩] ⟨0, 50, false⟩ rfl (by simp) rfl (by decide) (by decide)).2
    (by decide) (by decide)

theorem Tiles_at_block (pre : List MemBlock) (l : List MemBlock) (start stop : Nat)
    (h : Tiles start (pre ++ l) stop) : ∃ mid, start ≤ mid ∧ Tiles mid l stop := by
  obtain ⟨mid, h1, h2⟩ := (Tiles_append pre l start stop).1 h
  exact ⟨mid, Tiles_le pre start mid h1, h2⟩

/-- C11 (resize grows in place): in a state whose chain satisfies the partition invariant, let
`p` designate the non-free descriptor `d` of size `L` (`d` is the first descriptor of the chain
at that offset), let the descriptor `n` right after `d` be free with size `F`, and let
`L < new_size ≤ L + F`.  If `L + F = new_size`, `mem_resize(p, new_size)` returns `p` and
replaces `d` and `n` by the non-free descriptor `(d.offset, new_size)`.  If `L + F > new_size`
(and the new descriptor is allocated) it returns `p` and replaces them by that descriptor
followed by the free descriptor `(d.offset + new_size, L + F - new_size)`.  Every other
descriptor and the pool bytes are unchanged. -/
theorem C11_resize_grows_in_place (s : State) (capacity new_size : Nat)
    (pre post : List MemBlock) (d n : MemBlock) (hcap : capacity < WORD)
    (hpart : PartitionInv s.block_list capacity)
    (hchain : s.block_list = pre ++ d :: n :: post)
    (hfirst : ∀ b ∈ pre, b.offset ≠ d.offset) (hd : d.is_free = false)
    (hn : n.is_free = true) (hgrow : d.size < new_size) (hfit : new_size ≤ d.size + n.size) :
    (d.size + n.size = new_size → ∀ ok, mem_resize s (some d.offset) new_size ok =
      (some d.offset, { s with block_list := pre ++ ⟨d.offset, new_size, false⟩ :: post })) ∧
    (new_size < d.size + n.size → mem_resize s (some d.offset) new_size true =
      (some d.offset, { s with block_list :=
        pre ++ ⟨d.offset, new_size, false⟩ ::
          ⟨d.offset + new_size, d.size + n.size - new_size, true⟩ :: post })) := by
  have hne : new_size ≠ 0 := by omega
  have hlt : ¬ d.size ≥ new_size := by omega
  obtain ⟨mid, -, ht⟩ := Tiles_at_block pre (d :: n :: post) 0 capacity (hchain ▸ hpart.2)
  simp only [Tiles] at ht
  have hle := Tiles_le post _ _ ht.2.2
  have hw : wadd d.size n.size = d.size + n.size := wadd_eq (by omega)
  have hcond : n.is_free = true ∧ wadd d.size n.size ≥ new_size := ⟨hn, by rw [hw]; exact hfit⟩
  have hscan : ∀ ok, resize_scan d.offset new_size ok (d :: n :: post)
      = resize_split { d with size := d.size + n.size } new_size ok d.offset post := by
    intro ok
    conv_lhs => unfold resize_scan
    rw [if_pos rfl, if_neg hlt]
    dsimp only
    rw [if_pos hcond, hw]
  constructor
  · intro heq ok
    have hgt : ¬ d.size + n.size > new_size := by omega
    simp only [mem_resize, if_neg hne, hchain, resize_scan_skip _ _ _ _ pre hfirst, hscan,
      resize_split, heq, gt_iff_lt, lt_self_iff_false, if_false, hd]
  · intro hlt2
    have hgt : d.size + n.size > new_size := hlt2
    have hw2 : wadd d.offset new_size = d.offset + new_size := wadd_eq (by omega)
    simp only [mem_resize, if_neg hne, hchain, resize_scan_skip _ _ _ _ pre hfirst, hscan,
      resize_split, if_pos hgt, if_true, hw2, hd]

/-- Witness of C11: `mem_init(100); p = mem_alloc(20); mem_resize(p, 50)` returns `p` and the
chain is `[non-free 0..50, free 50..100]`. -/
theorem C11_resize_grows_in_place_witness :
    mem_resize (mem_alloc (mem_init 100 fun _ => 0) 20 true).2 (some 0) 50 true =
      (some 0, { (mem_alloc (mem_init 100 fun _ => 0) 20 true).2 with
        block_list := [⟨0, 50, false⟩, ⟨0 + 50, 20 + 80 - 50, true⟩] }) :=
  (C11_resize_grows_in_place (mem_alloc (mem_init 100 fun _ => 0) 20 true).2 100 50 [] []
    ⟨0, 20, false⟩ ⟨20, 80, true⟩ (by decide) (by decide) (by decide) (by simp) rfl rfl
    (by decide) (by decide)).2 (by decide)

/-- C14 (failed resize is atomic): in a state whose chain satisfies the partition invariant,
let `p` designate the descriptor `d` of size `L` (first descriptor at that offset; non-free in
the claim, the flag plays no role) and let `new_size > L`.  If the block cannot grow in place (the next descriptor is absent,
non-free, or `L` plus its size is below `new_size`) and no free descriptor has size at least
`new_size`, then `mem_resize(p, new_size)` returns null and the state (chain and pool bytes) is
exactly the state before the call. -/
theorem C14_failed_resize_is_atomic (s : State) (capacity new_size : Nat) (ok : Bool)
    (pre post : List MemBlock) (d : MemBlock) (hcap : capacity < WORD)
    (hpart : PartitionInv s.block_list capacity) (hchain : s.block_list = pre ++ d :: post)
    (hfirst : ∀ b ∈ pre, b.offset ≠ d.offset) (hgrow : d.size < new_size)
    (hnogrow : ∀ n ∈ post.head?, ¬ (n.is_free = true ∧ new_size ≤ d.size + n.size))
    (hnofit : ∀ b ∈ s.block_list, ¬ (b.is_free = true ∧ new_size ≤ b.size)) :
    mem_resize s (some d.offset) new_size ok = (none, s) := by
  have hne : new_size ≠ 0 := by omega
  have hlt : ¬ d.size ≥ new_size := by omega
  obtain ⟨mid, -, ht⟩ := Tiles_at_block pre (d :: post) 0 capacity (hchain ▸ hpart.2)
  have hscan : resize_scan d.offset new_size ok (d :: post) = ResizeScan.moved d.size := by
    conv_lhs => unfold resize_scan
    rw [if_pos rfl, if_neg hlt]
    cases post with
    | nil => rfl
    | cons n post2 =>
      simp only [Tiles] at ht
      have hle := Tiles_le post2 _ _ ht.2.2
      have hw : wadd d.size n.size = d.size + n.size := wadd_eq (by omega)
      have hcond : ¬ (n.is_free = true ∧ wadd d.size n.size ≥ new_size) := by
        rw [hw]; exact hnogrow n (by simp)
      dsimp only
      rw [if_neg hcond]
  have halloc : mem_alloc s new_size ok = (none, s) := by
    simp only [mem_alloc, if_neg hne, alloc_scan_none_of_no_fit new_size ok _ hnofit]
  simp only [mem_resize, if_neg hne]
  rw [hchain, resize_scan_skip _ _ _ _ pre hfirst, hscan]
  simp only [halloc]

/-- Witness of C14: in `[non-free 0..20, non-free 20..60, free 60..100]` the block at offset 0
cannot grow to 50 bytes in place and no free block has 50 bytes. -/
theorem C14_failed_resize_is_atomic_witness :
    mem_resize ⟨some (List.replicate 100 7), 100,
        [⟨0, 20, false⟩, ⟨20, 40, false⟩, ⟨60, 40, true⟩]⟩ (some 0) 50 true
      = (none, ⟨some (List.replicate 100 7), 100,
        [⟨0, 20, false⟩, ⟨20, 40, false⟩, ⟨60, 40, true⟩]⟩) :=
  C14_failed_resize_is_atomic
    ⟨some (List.replicate 100 7), 100, [⟨0, 20, false⟩, ⟨20, 40, false⟩, ⟨60, 40, true⟩]⟩
    100 50 true [] [⟨20, 40, false⟩, ⟨60, 40, true⟩] ⟨0, 20, false⟩
    (by decide) (by decide) rfl (by simp) (by decide) (by simp) (by decide)

/-- C15 (resize degenerate cases): `mem_resize(NULL, size)` returns the same pointer and
the same state as `mem_alloc(size)`, for every size; and for a non-null pointer `p`,
`mem_resize(p, 0)` returns null and the state that `mem_free(p)` produces. -/
theorem C15_resize_degenerate_cases (s : State) (size : Nat) (ok : Bool) (offset : Nat) :
    mem_resize s none size ok = mem_alloc s size ok ∧
      mem_resize s (some offset) 0 ok = (none, mem_free s (some offset)) := by
  constructor
  · rfl
  · simp [mem_resize]

/-! ### Zero-size allocation, initialisation and reset -/

theorem alloc_zero_scan_first (d : MemBlock) (post : List MemBlock) (hd : d.is_free = true) :
    ∀ (pre : List MemBlock), (∀ b ∈ pre, b.is_free = false) →
      alloc_zero_scan (pre ++ d :: post) = some d.offset
  | [], _ => by simp [alloc_zero_scan, hd]
  | b :: pre, h => by
    have hb : b.is_free = false := h b (by simp)
    simp [alloc_zero_scan, hb,
      alloc_zero_scan_first d post hd pre (fun x hx => h x (List.mem_cons_of_mem _ hx))]

theorem alloc_scan_head_fits (size : Nat) (d : MemBlock) (post : List MemBlock)
    (hfree : d.is_free = true) (hfit : size ≤ d.size) :
    (alloc_scan size true (d :: post)).1 = some d.offset := by
  have hc : d.is_free = true ∧ d.size ≥ size := ⟨hfree, hfit⟩
  unfold alloc_scan
  rw [if_pos hc]
  simp only [if_true]
  split_ifs <;> rfl

/-- C17 (zero-size allocation): `mem_alloc(0)` leaves the state (chain and pool bytes)
unchanged; it returns null when no descriptor is free; otherwise it returns the offset of the
first free descriptor `d` of the chain, which in a chain linked in ascending offset order is
the lowest offset of a free descriptor, and a following `mem_alloc(n)` with `0 < n ≤ d.size`
(descriptor storage available) returns the same address. -/
theorem C17_zero_size_allocation (s : State) (ok : Bool) :
    (mem_alloc s 0 ok).2 = s ∧
    ((∀ b ∈ s.block_list, b.is_free = false) → (mem_alloc s 0 ok).1 = none) ∧
    (∀ pre d post, s.block_list = pre ++ d :: post → (∀ b ∈ pre, b.is_free = false) →
      d.is_free = true →
        (mem_alloc s 0 ok).1 = some d.offset ∧
        (s.block_list.Pairwise (fun a b => a.offset ≤ b.offset) →
          ∀ b ∈ s.block_list, b.is_free = true → d.offset ≤ b.offset) ∧
        (∀ n, 0 < n → n ≤ d.size →
          (mem_alloc (mem_alloc s 0 ok).2 n true).1 = some d.offset)) := by
  refine ⟨by simp [mem_alloc], ?_, ?_⟩
  · intro h
    simp [mem_alloc, alloc_zero_scan_none s.block_list h]
  · intro pre d post hl hpre hd
    refine ⟨?_, ?_, ?_⟩
    · simp [mem_alloc, hl, alloc_zero_scan_first d post hd pre hpre]
    · intro hsorted b hb hbfree
      rw [hl] at hsorted hb
      rcases List.mem_append.1 hb with hb | hb
      · rw [hpre b hb] at hbfree
        cases hbfree
      · rcases List.mem_cons.1 hb with rfl | hb
        · exact Nat.le_refl _
        · exact (List.pairwise_cons.1 (List.pairwise_append.1 hsorted).2.1).1 b hb
    · intro n hn hfit
      have hne : n ≠ 0 := by omega
      have hpre2 : ∀ b ∈ pre, ¬ (b.is_free = true ∧ n ≤ b.size) := fun b hb hh => by
        rw [hpre b hb] at hh
        cases hh.1
      have hs : (mem_alloc s 0 ok).2 = s := by simp [mem_alloc]
      rw [hs]
      simp only [mem_alloc, if_neg hne, hl, alloc_scan_select n true d post hd hfit pre hpre2]
      exact alloc_scan_head_fits n d post hd hfit

/-- Witness of C17 on `[non-free 0..30, free 30..100]`: `mem_alloc(0)` returns offset 30 and
a following `mem_alloc(10)` returns offset 30 as well. -/
theorem C17_zero_size_allocation_witness :
    (mem_alloc ⟨some (List.replicate 100 0), 100, [⟨0, 30, false⟩, ⟨30, 70, true⟩]⟩ 0 true).1
        = some 30 ∧
      (mem_alloc (mem_alloc
        ⟨some (List.replicate 100 0), 100, [⟨0, 30, false⟩, ⟨30, 70, true⟩]⟩ 0 true).2
        10 true).1 = some 30 :=
  ⟨((C17_zero_size_allocation
      ⟨some (List.replicate 100 0), 100, [⟨0, 30, false⟩, ⟨30, 70, true⟩]⟩ true).2.2
      [⟨0, 30, false⟩] ⟨30, 70, true⟩ [] rfl (by simp) rfl).1,
    ((C17_zero_size_allocation
      ⟨some (List.replicate 100 0), 100, [⟨0, 30, false⟩, ⟨30, 70, true⟩]⟩ true).2.2
      [⟨0, 30, false⟩] ⟨30, 70, true⟩ [] rfl (by simp) rfl).2.2 10 (by decide) (by decide)⟩

theorem mem_alloc_pool (s : State) (size : Nat) (ok : Bool) :
    (mem_alloc s size ok).2.memory_pool = s.memory_pool := by
  unfold mem_alloc
  split_ifs <;> rfl

theorem mem_free_pool (s : State) (ptr : Option Nat) :
    (mem_free s ptr).memory_pool = s.memory_pool := by
  cases ptr <;> rfl

theorem mem_resize_pool_isSome (s : State) (ptr : Option Nat) (size : Nat) (ok : Bool) :
    (mem_resize s ptr size ok).2.memory_pool.isSome = s.memory_pool.isSome := by
  cases ptr with
  | none => exact congrArg Option.isSome (mem_alloc_pool s size ok)
  | some offset =>
    simp only [mem_resize]
    split_ifs with h0
    · rfl
    · cases resize_scan offset size ok s.block_list with
      | done ret chain => rfl
      | missing => rfl
      | moved old_size =>
        have ha := mem_alloc_pool s size ok
        cases hal : mem_alloc s size ok with
        | mk r s1 =>
          rw [hal] at ha
          cases r with
          | none => exact congrArg Option.isSome ha
          | some new_off =>
            simp only [mem_free_pool]
            rw [← ha]
            cases s1.memory_pool <;> rfl

theorem run_pool_isSome : ∀ (ops : List Op) (s : State),
    (run s ops).memory_pool.isSome = s.memory_pool.isSome
  | [], _ => rfl
  | op :: ops, s => by
    have h1 : (step s op).memory_pool.isSome = s.memory_pool.isSome := by
      cases op with
      | alloc size ok => exact congrArg Option.isSome (mem_alloc_pool s size ok)
      | free ptr => exact congrArg Option.isSome (mem_free_pool s ptr)
      | resize ptr size ok => exact mem_resize_pool_isSome s ptr size ok
    exact (run_pool_isSome ops (step s op)).trans h1

/-- C18 (init and re-init after reset): `mem_init(capacity)` gives a pool of `capacity` bytes,
`pool_size = capacity` and the chain of the single free descriptor `(0, capacity)`; after any
sequence of public operations `mem_deinit` leaves the globals at their initial values (no
pool, `pool_size = 0`, empty chain), the state in which a first `mem_init` runs; `mem_init`
assigns all three globals without reading them, so the next `mem_init(capacity2)` gives the
single free descriptor `(0, capacity2)` whatever happened before. -/
theorem C18_init_and_reinit (capacity : Nat) (junk : Nat → Nat) (ops : List Op)
    (capacity2 : Nat) (junk2 : Nat → Nat) :
    (mem_init capacity junk).block_list = [⟨0, capacity, true⟩] ∧
    (mem_init capacity junk).pool_size = capacity ∧
    (∃ pool, (mem_init capacity junk).memory_pool = some pool ∧ pool.length = capacity) ∧
    mem_deinit (run (mem_init capacity junk) ops) = uninitialized ∧
    (mem_deinit (run (mem_init capacity junk) ops)).block_list = [] ∧
    (mem_init capacity2 junk2).block_list = [⟨0, capacity2, true⟩] := by
  have hsome : (run (mem_init capacity junk) ops).memory_pool.isSome = true := by
    rw [run_pool_isSome]; rfl
  have hde : mem_deinit (run (mem_init capacity junk) ops) = uninitialized := by
    unfold mem_deinit
    cases hp : (run (mem_init capacity junk) ops).memory_pool with
    | none => rw [hp] at hsome; cases hsome
    | some pool => rfl
  refine ⟨rfl, rfl, ⟨_, rfl, by simp⟩, hde, by rw [hde]; rfl, rfl⟩

/-- C19 (resize never hands out a free block), evaluated on `mem_init(100)`,
`p = mem_alloc(50)`, `mem_free(p)`, `mem_resize(p, 20)`: the loop of `mem_resize` does not
test `is_free`, so for the stale pointer `p` it splits the free block `0..100` and returns `p`,
whose descriptor `(0, 20)` is free. -/
theorem C19_resize_returns_free_block_for_stale_pointer :
    (run (mem_init 100 fun _ => 0) [Op.alloc 50 true, Op.free (some 0)]).block_list
        = [⟨0, 100, true⟩] ∧
      mem_resize (run (mem_init 100 fun _ => 0) [Op.alloc 50 true, Op.free (some 0)])
          (some 0) 20 true
        = (some 0, { mem_init 100 (fun _ => 0) with
            block_list := [⟨0, 20, true⟩, ⟨20, 80, true⟩] }) := by
  decide

/-- C16 as stated fails for a zero-size request: after `mem_init(100)`, `mem_alloc(0)` returns
the non-null pointer at offset 0, nothing has been freed, and the only descriptor at offset 0
is free. -/
theorem C16_zero_size_pointer_counterexample :
    (mem_alloc (mem_init 100 fun _ => 0) 0 true).1 = some 0 ∧
      (mem_alloc (mem_init 100 fun _ => 0) 0 true).2.block_list.filter
          (fun b => decide (b.offset = 0)) = [⟨0, 100, true⟩] := by
  decide

/-! ### Pool bytes -/

theorem Tiles_mem_bounds : ∀ (l : List MemBlock) (start stop : Nat), Tiles start l stop →
    ∀ b ∈ l, start ≤ b.offset ∧ b.offset + b.size ≤ stop
  | [], _, _, _ => by simp
  | x :: rest, start, stop, h => by
    simp only [Tiles] at h
    have hle := Tiles_le rest _ _ h.2
    intro b hb
    rcases List.mem_cons.1 hb with rfl | hb
    · omega
    · have := Tiles_mem_bounds rest _ _ h.2 b hb
      omega

theorem Tiles_disjoint : ∀ (l : List MemBlock) (start stop : Nat), Tiles start l stop →
    ∀ b ∈ l, ∀ c ∈ l, b ≠ c → b.offset + b.size ≤ c.offset ∨ c.offset + c.size ≤ b.offset
  | [], _, _, _ => by simp
  | x :: rest, start, stop, h => by
    simp only [Tiles] at h
    intro b hb c hc hne
    rcases List.mem_cons.1 hb with hbx | hb2
    · rcases List.mem_cons.1 hc with hcx | hc2
      · exact absurd (hbx.trans hcx.symm) hne
      · have := (Tiles_mem_bounds rest _ _ h.2 c hc2).1
        rw [hbx]
        exact Or.inl this
    · rcases List.mem_cons.1 hc with hcx | hc2
      · have := (Tiles_mem_bounds rest _ _ h.2 b hb2).1
        rw [hcx]
        exact Or.inr this
      · exact Tiles_disjoint rest _ _ h.2 b hb2 c hc2 hne

theorem memcpy_length (pool : List Nat) (dst src n : Nat) :
    (memcpy pool dst src n).length = pool.length := by
  simp [memcpy]

theorem memcpy_outside (pool : List Nat) (dst src n i : Nat)
    (h : ¬ (dst ≤ i ∧ i < dst + n)) : (memcpy pool dst src n)[i]? = pool[i]? := by
  unfold memcpy
  rw [List.getElem?_map]
  by_cases hi : i < pool.length
  · rw [List.getElem?_range hi]
    simp [h, hi, List.getD_eq_getElem?_getD]
  · have h1 : pool[i]? = none := List.getElem?_eq_none (by omega)
    have h2 : (List.range pool.length)[i]? = none :=
      List.getElem?_eq_none (by simp; omega)
    rw [h1, h2]
    rfl

theorem memcpy_inside (pool : List Nat) (dst src n k : Nat) (hk : k < n)
    (hdst : dst + k < pool.length) (hsrc : src + k < pool.length) :
    (memcpy pool dst src n)[dst + k]? = pool[src + k]? := by
  unfold memcpy
  rw [List.getElem?_map, List.getElem?_range hdst]
  have hc : dst ≤ dst + k ∧ dst + k < dst + n := ⟨by omega, by omega⟩
  simp [hc, hsrc, List.getD_eq_getElem?_getD]

theorem resize_scan_moved_lt (offset size : Nat) (ok : Bool) (old_size : Nat) :
    ∀ (l : List MemBlock), resize_scan offset size ok l = ResizeScan.moved old_size →
      old_size < size
  | [], h => by simp [resize_scan] at h
  | cur :: rest, h => by
    unfold resize_scan at h
    by_cases h1 : cur.offset = offset
    · rw [if_pos h1] at h
      by_cases h2 : cur.size ≥ size
      · rw [if_pos h2] at h
        unfold resize_split at h
        split_ifs at h
      · rw [if_neg h2] at h
        cases rest with
        | nil =>
          simp only [ResizeScan.moved.injEq] at h
          omega
        | cons nxt rest2 =>
          dsimp only at h
          by_cases h3 : nxt.is_free = true ∧ wadd cur.size nxt.size ≥ size
          · rw [if_pos h3] at h
            unfold resize_split at h
            split_ifs at h
          · rw [if_neg h3] at h
            simp only [ResizeScan.moved.injEq] at h
            omega
    · rw [if_neg h1] at h
      cases hrec : resize_scan offset size ok rest with
      | done ret chain => rw [hrec] at h; cases h
      | missing => rw [hrec] at h; cases h
      | moved n =>
        rw [hrec] at h
        simp only [ResizeScan.moved.injEq] at h
        subst h
        exact resize_scan_moved_lt offset size ok n rest hrec

/-- C20 (contents of other allocations are preserved): in a state whose chain satisfies the
partition invariant, for a non-free descriptor `b` and an offset `i` in its range
`[b.offset, b.offset + b.size)`, the pool byte at `i` is the same after any `mem_alloc`, any
`mem_free` and any `mem_resize` (in particular one whose pointer is not the address of `b`):
only the copy fallback writes pool bytes, and it writes inside the block it has just
allocated, which was free before the call. -/
theorem C20_other_contents_preserved (s : State) (capacity : Nat) (b : MemBlock) (i : Nat)
    (hpart : PartitionInv s.block_list capacity) (hb : b ∈ s.block_list)
    (hbf : b.is_free = false) (hlo : b.offset ≤ i) (hhi : i < b.offset + b.size) :
    (∀ size ok, pool_byte (mem_alloc s size ok).2 i = pool_byte s i) ∧
    (∀ p, pool_byte (mem_free s p) i = pool_byte s i) ∧
    (∀ p size ok, pool_byte (mem_resize s p size ok).2 i = pool_byte s i) := by
  have halloc : ∀ size ok, pool_byte (mem_alloc s size ok).2 i = pool_byte s i := by
    intro size ok
    simp only [pool_byte, mem_alloc_pool]
  have hfree : ∀ p, pool_byte (mem_free s p) i = pool_byte s i := by
    intro p
    simp only [pool_byte, mem_free_pool]
  refine ⟨halloc, hfree, ?_⟩
  intro p size ok
  cases p with
  | none => exact halloc size ok
  | some offset =>
    simp only [mem_resize]
    split_ifs with h0
    · exact hfree (some offset)
    · cases hscan : resize_scan offset size ok s.block_list with
      | done ret chain => rfl
      | missing => rfl
      | moved old_size =>
        have hold := resize_scan_moved_lt offset size ok old_size _ hscan
        have hpool := mem_alloc_pool s size ok
        have hret : (mem_alloc s size ok).1 = (alloc_scan size ok s.block_list).1 := by
          simp only [mem_alloc, if_neg h0]
        cases hal : mem_alloc s size ok with
        | mk r s1 =>
          rw [hal] at hpool hret
          dsimp only at hpool hret
          cases r with
          | none =>
            show pool_byte s1 i = pool_byte s i
            simp only [pool_byte, hpool]
          | some new_off =>
            obtain ⟨pre, d2, post, hl, hdo, hdf, hds, -⟩ :=
              alloc_scan_some size ok new_off s.block_list hret.symm
            have hd2 : d2 ∈ s.block_list := by rw [hl]; simp
            have hne : b ≠ d2 := fun hh => by rw [hh, hdf] at hbf; cases hbf
            have hdis := Tiles_disjoint _ _ _ hpart.2 b hb d2 hd2 hne
            have hout : ¬ (new_off ≤ i ∧ i < new_off + old_size) := by omega
            show pool_byte (mem_free _ (some offset)) i = pool_byte s i
            simp only [pool_byte, mem_free_pool, hpool]
            cases s.memory_pool with
            | none => rfl
            | some pool => exact memcpy_outside pool new_off offset old_size i hout

/-- Witness of C20: in `[non-free 0..10, non-free 10..30, free 30..100]` with bytes
`0, 1, 2, ...`, moving the block at offset 0 to 15 bytes copies it to offset 30 and leaves byte
12 of the block at offset 10 unchanged. -/
theorem C20_other_contents_preserved_witness :
    pool_byte (mem_resize ⟨some (List.range 100), 100,
        [⟨0, 10, false⟩, ⟨10, 20, false⟩, ⟨30, 70, true⟩]⟩ (some 0) 15 true).2 12
      = pool_byte ⟨some (List.range 100), 100,
        [⟨0, 10, false⟩, ⟨10, 20, false⟩, ⟨30, 70, true⟩]⟩ 12 :=
  (C20_other_contents_preserved
    ⟨some (List.range 100), 100, [⟨0, 10, false⟩, ⟨10, 20, false⟩, ⟨30, 70, true⟩]⟩
    100 ⟨10, 20, false⟩ 12 (by decide) (by decide) rfl (by decide) (by decide)).2.2
    (some 0) 15 true

/-! ### Strictly increasing offsets -/

theorem strict_head_pos (cur : MemBlock) (rest : List MemBlock) (start stop : Nat)
    (ht : Tiles start (cur :: rest) stop) (hs : StrictOffsets (cur :: rest))
    (hne : rest ≠ []) : 0 < cur.size := by
  cases rest with
  | nil => exact absurd rfl hne
  | cons r rest2 =>
    simp only [Tiles] at ht
    have := (List.pairwise_cons.1 hs).1 r (by simp)
    omega

theorem strict_cons_of_tiles (cur : MemBlock) (l : List MemBlock) (stop : Nat)
    (ht : Tiles (cur.offset + cur.size) l stop) (hpos : l = [] ∨ 0 < cur.size)
    (hs : StrictOffsets l) : StrictOffsets (cur :: l) := by
  refine List.pairwise_cons.2 ⟨fun b hb => ?_, hs⟩
  have := (Tiles_mem_bounds l _ _ ht b hb).1
  rcases hpos with h | h
  · rw [h] at hb; cases hb
  · omega

theorem split_strict (cur : MemBlock) (rest : List MemBlock) (start stop size : Nat)
    (flag : Bool) (ht : Tiles start (cur :: rest) stop) (hs : StrictOffsets (cur :: rest))
    (hsize : 0 < size) (hlt : size < cur.size) :
    StrictOffsets (⟨cur.offset, size, flag⟩ ::
      ⟨cur.offset + size, cur.size - size, true⟩ :: rest) := by
  simp only [Tiles] at ht
  obtain ⟨h1, h2⟩ := List.pairwise_cons.1 hs
  refine List.pairwise_cons.2 ⟨fun b hb => ?_, List.pairwise_cons.2 ⟨fun b hb => ?_, h2⟩⟩
  · rcases List.mem_cons.1 hb with rfl | hb
    · show cur.offset < cur.offset + size
      omega
    · exact h1 b hb
  · have := (Tiles_mem_bounds rest _ _ ht.2 b hb).1
    show cur.offset + size < b.offset
    omega

theorem alloc_scan_strict (size : Nat) (ok : Bool) (stop : Nat) (hstop : stop < WORD)
    (hsize : 0 < size) :
    ∀ (l : List MemBlock) (start : Nat), Tiles start l stop → StrictOffsets l →
      StrictOffsets (alloc_scan size ok l).2
  | [], _, _, _ => by simp [alloc_scan]
  | cur :: rest, start, ht, hs => by
    have ht2 := ht
    simp only [Tiles] at ht2
    have hle := Tiles_le rest _ _ ht2.2
    unfold alloc_scan
    by_cases h1 : cur.is_free = true ∧ cur.size ≥ size
    · rw [if_pos h1]
      by_cases h2 : cur.size > size
      · rw [if_pos h2]
        cases ok with
        | true =>
          have hw : wadd cur.offset size = cur.offset + size := wadd_eq (by omega)
          simp only [if_true, hw]
          exact split_strict cur rest start stop size false ht hs hsize h2
        | false => simpa using hs
      · rw [if_neg h2]
        obtain ⟨h3, h4⟩ := List.pairwise_cons.1 hs
        exact List.pairwise_cons.2 ⟨h3, h4⟩
    · rw [if_neg h1]
      have ih := alloc_scan_strict size ok stop hstop hsize rest _ ht2.2
        (List.pairwise_cons.1 hs).2
      have ht3 := alloc_scan_tiles size ok stop hstop rest _ ht2.2
      refine strict_cons_of_tiles cur _ stop ht3 ?_ ih
      cases rest with
      | nil => exact Or.inl (by simp [alloc_scan])
      | cons r rest2 => exact Or.inr (strict_head_pos cur _ start stop ht hs (by simp))

theorem into_preceding_offsets_sublist (cur : MemBlock) (post : List MemBlock) :
    ∀ (pre : List MemBlock),
      ((into_preceding pre cur post).map fun b => b.offset).Sublist
        ((pre ++ cur :: post).map fun b => b.offset)
  | [] => List.Sublist.refl _
  | [p] => by
    by_cases hp : p.is_free = true
    · simp only [into_preceding, if_pos hp, List.singleton_append, List.map_cons]
      exact List.Sublist.cons₂ _ (List.sublist_cons_self _ _)
    · simp only [into_preceding, if_neg hp, List.singleton_append]
      exact List.Sublist.refl _
  | a :: b :: pre => by
    have ih := into_preceding_offsets_sublist cur post (b :: pre)
    show ((a :: into_preceding (b :: pre) cur post).map fun b => b.offset).Sublist
      ((a :: (b :: pre ++ cur :: post)).map fun b => b.offset)
    simp only [List.map_cons] at ih ⊢
    exact List.Sublist.cons₂ _ ih

theorem coalesced_offsets_sublist (pre : List MemBlock) (d : MemBlock) (post : List MemBlock) :
    ((coalesced pre d post).map fun b => b.offset).Sublist
      ((pre ++ d :: post).map fun b => b.offset) := by
  unfold coalesced
  cases post with
  | nil =>
    have := into_preceding_offsets_sublist { d with is_free := true } [] pre
    simpa using this
  | cons n post2 =>
    dsimp only
    split_ifs with hn
    · have h1 := into_preceding_offsets_sublist
        { offset := d.offset, size := d.size + n.size, is_free := true } post2 pre
      refine h1.trans ?_
      simp only [List.map_append, List.map_cons]
      exact List.Sublist.append_left
        (List.Sublist.cons₂ _ (List.sublist_cons_self _ _)) _
    · have := into_preceding_offsets_sublist { d with is_free := true } (n :: post2) pre
      simpa using this

theorem coalesced_strict (pre : List MemBlock) (d : MemBlock) (post : List MemBlock)
    (h : StrictOffsets (pre ++ d :: post)) : StrictOffsets (coalesced pre d post) := by
  have h1 : ((pre ++ d :: post).map fun b => b.offset).Pairwise (fun x y => x < y) :=
    List.pairwise_map.2 h
  exact List.pairwise_map.1 (List.Pairwise.sublist (coalesced_offsets_sublist pre d post) h1)

theorem resize_split_strict (cur : MemBlock) (size : Nat) (ok : Bool) (ptr : Nat)
    (rest : List MemBlock) (start stop : Nat) (hstop : stop < WORD) (hsize : 0 < size)
    (ht : Tiles start (cur :: rest) stop) (hs : StrictOffsets (cur :: rest))
    (ret : Option Nat) (chain : List MemBlock)
    (hr : resize_split cur size ok ptr rest = ResizeScan.done ret chain) :
    StrictOffsets chain ∧ live chain = live (cur :: rest) ∧ (ret = some ptr ∨ ret = none) := by
  have ht2 := ht
  simp only [Tiles] at ht2
  have hle := Tiles_le rest _ _ ht2.2
  unfold resize_split at hr
  by_cases h1 : cur.size > size
  · rw [if_pos h1] at hr
    cases ok with
    | true =>
      simp only [if_true, ResizeScan.done.injEq] at hr
      obtain ⟨rfl, rfl⟩ := hr
      have hw : wadd cur.offset size = cur.offset + size := wadd_eq (by omega)
      rw [hw]
      refine ⟨split_strict cur rest start stop size cur.is_free ht hs hsize h1, ?_, Or.inl rfl⟩
      by_cases hc : cur.is_free = true <;> simp [live_cons, hc]
    | false =>
      simp only [Bool.false_eq_true, if_false, ResizeScan.done.injEq] at hr
      obtain ⟨rfl, rfl⟩ := hr
      exact ⟨hs, rfl, Or.inr rfl⟩
  · rw [if_neg h1] at hr
    simp only [ResizeScan.done.injEq] at hr
    obtain ⟨rfl, rfl⟩ := hr
    exact ⟨hs, rfl, Or.inl rfl⟩

theorem resize_scan_strict (offset size : Nat) (ok : Bool) (stop : Nat) (hstop : stop < WORD)
    (hsize : 0 < size) :
    ∀ (l : List MemBlock) (start : Nat) (ret : Option Nat) (chain : List MemBlock),
      Tiles start l stop → StrictOffsets l →
      resize_scan offset size ok l = ResizeScan.done ret chain →
      StrictOffsets chain ∧ live chain = live l ∧ (ret = some offset ∨ ret = none)
  | [], _, _, _, _, _, hr => by simp [resize_scan] at hr
  | cur :: rest, start, ret, chain, ht, hs, hr => by
    unfold resize_scan at hr
    by_cases h1 : cur.offset = offset
    · rw [if_pos h1] at hr
      by_cases h2 : cur.size ≥ size
      · rw [if_pos h2] at hr
        exact resize_split_strict cur size ok offset rest start stop hstop hsize ht hs ret
          chain hr
      · rw [if_neg h2] at hr
        cases rest with
        | nil => simp at hr
        | cons nxt rest2 =>
          dsimp only at hr
          by_cases h3 : nxt.is_free = true ∧ wadd cur.size nxt.size ≥ size
          · rw [if_pos h3] at hr
            have ht2 := ht
            simp only [Tiles] at ht2
            have hle := Tiles_le rest2 _ _ ht2.2.2
            have hw : wadd cur.size nxt.size = cur.size + nxt.size := wadd_eq (by omega)
            rw [hw] at hr
            have ht3 : Tiles start ({ cur with size := cur.size + nxt.size } :: rest2) stop := by
              simp only [Tiles]
              refine ⟨ht2.1, ?_⟩
              have : cur.offset + (cur.size + nxt.size) = nxt.offset + nxt.size := by omega
              rw [this]; exact ht2.2.2
            have hs3 : StrictOffsets ({ cur with size := cur.size + nxt.size } :: rest2) := by
              obtain ⟨h4, h5⟩ := List.pairwise_cons.1 hs
              exact List.pairwise_cons.2
                ⟨fun b hb => h4 b (List.mem_cons_of_mem _ hb), (List.pairwise_cons.1 h5).2⟩
            obtain ⟨r1, r2, r3⟩ := resize_split_strict _ size ok offset rest2 start stop hstop
              hsize ht3 hs3 ret chain hr
            refine ⟨r1, ?_, r3⟩
            rw [r2]
            by_cases hc : cur.is_free = true <;> simp [live_cons, hc, h3.1]
          · rw [if_neg h3] at hr
            cases hr
    · rw [if_neg h1] at hr
      cases hrec : resize_scan offset size ok rest with
      | done ret2 chain2 =>
        rw [hrec] at hr
        simp only [ResizeScan.done.injEq] at hr
        obtain ⟨rfl, rfl⟩ := hr
        have ht2 := ht
        simp only [Tiles] at ht2
        obtain ⟨r1, r2, r3⟩ := resize_scan_strict offset size ok stop hstop hsize rest _ ret2
          chain2 ht2.2 (List.pairwise_cons.1 hs).2 hrec
        have ht3 := resize_scan_tiles offset size ok stop hstop rest _ ret2 chain2 ht2.2 hrec
        have hrest : rest ≠ [] := by
          intro hnil
          rw [hnil] at hrec
          simp [resize_scan] at hrec
        refine ⟨strict_cons_of_tiles cur chain2 stop ht3.1
          (Or.inr (strict_head_pos cur rest start stop ht hs hrest)) r1, ?_, r3⟩
        rw [live_cons, live_cons, r2]
      | moved old_size => rw [hrec] at hr; cases hr
      | missing => rw [hrec] at hr; cases hr

theorem strict_offset_inj (l : List MemBlock) (hs : StrictOffsets l) (a b : MemBlock)
    (ha : a ∈ l) (hb : b ∈ l) (hoff : a.offset = b.offset) : a = b := by
  by_contra hne
  have hsym : Symmetric fun (x y : MemBlock) => x.offset ≠ y.offset :=
    fun x y hxy => fun h => hxy h.symm
  have hp : l.Pairwise fun x y => x.offset ≠ y.offset :=
    List.Pairwise.imp (fun hxy => Nat.ne_of_lt hxy) hs
  exact List.Pairwise.forall hsym hp ha hb hne hoff

theorem strict_split (pre post : List MemBlock) (d : MemBlock)
    (hs : StrictOffsets (pre ++ d :: post)) :
    (∀ b ∈ pre, b.offset < d.offset) ∧ (∀ b ∈ post, d.offset < b.offset) := by
  obtain ⟨-, h2, h3⟩ := List.pairwise_append.1 hs
  exact ⟨fun b hb => h3 b hb d (by simp), (List.pairwise_cons.1 h2).1⟩

theorem strict_filter_offset (l : List MemBlock) (hs : StrictOffsets l) (x : MemBlock)
    (hx : x ∈ l) : l.filter (fun b => decide (b.offset = x.offset)) = [x] := by
  obtain ⟨pre, post, rfl⟩ := List.append_of_mem hx
  obtain ⟨h1, h2⟩ := strict_split pre post x hs
  have hpre : pre.filter (fun b => decide (b.offset = x.offset)) = [] :=
    List.filter_eq_nil_iff.2 (fun b hb => by have := h1 b hb; simp; omega)
  have hpost : post.filter (fun b => decide (b.offset = x.offset)) = [] :=
    List.filter_eq_nil_iff.2 (fun b hb => by have := h2 b hb; simp; omega)
  simp [List.filter_append, List.filter_cons, hpre, hpost]

theorem mem_live_iff (l : List MemBlock) (p : Nat) :
    p ∈ live l ↔ ∃ b ∈ l, b.is_free = false ∧ b.offset = p := by
  simp [live, and_assoc]

theorem mem_into_preceding_of_nonfree (x cur : MemBlock) (post : List MemBlock)
    (hx : x.is_free = false) :
    ∀ (pre : List MemBlock), x ∈ pre ∨ x ∈ post → x ∈ into_preceding pre cur post
  | [], h => by
    rcases h with h | h
    · cases h
    · exact List.mem_cons_of_mem _ h
  | [p], h => by
    by_cases hp : p.is_free = true
    · simp only [into_preceding, if_pos hp]
      rcases h with h | h
      · have hxp : x = p := by simpa using h
        rw [hxp, hp] at hx
        cases hx
      · exact List.mem_cons_of_mem _ h
    · simp only [into_preceding, if_neg hp]
      rcases h with h | h
      · have hxp : x = p := by simpa using h
        rw [hxp]
        exact List.mem_cons_self _ _
      · exact List.mem_cons_of_mem _ (List.mem_cons_of_mem _ h)
  | a :: b :: pre, h => by
    show x ∈ a :: into_preceding (b :: pre) cur post
    rcases h with h | h
    · rcases List.mem_cons.1 h with h2 | h2
      · rw [h2]
        exact List.mem_cons_self _ _
      · exact List.mem_cons_of_mem _
          (mem_into_preceding_of_nonfree x cur post hx (b :: pre) (Or.inl h2))
    · exact List.mem_cons_of_mem _
        (mem_into_preceding_of_nonfree x cur post hx (b :: pre) (Or.inr h))

theorem mem_coalesced_of_nonfree (x : MemBlock) (pre : List MemBlock) (d : MemBlock)
    (post : List MemBlock) (hx : x.is_free = false) (h : x ∈ pre ∨ x ∈ post) :
    x ∈ coalesced pre d post := by
  unfold coalesced
  cases post with
  | nil => exact mem_into_preceding_of_nonfree x _ [] hx pre h
  | cons n post2 =>
    dsimp only
    split_ifs with hn
    · refine mem_into_preceding_of_nonfree x _ post2 hx pre ?_
      rcases h with h | h
      · exact Or.inl h
      · rcases List.mem_cons.1 h with h2 | h2
        · rw [h2, hn] at hx
          cases hx
        · exact Or.inr h2
    · exact mem_into_preceding_of_nonfree x _ (n :: post2) hx pre h

theorem mem_free_strict_spec (s : State) (capacity : Nat) (o : Nat) (hcap : capacity < WORD)
    (ht : Tiles 0 s.block_list capacity) (hs : StrictOffsets s.block_list) :
    StrictOffsets (mem_free s (some o)).block_list ∧
      ∀ x, x.is_free = false →
        (x ∈ (mem_free s (some o)).block_list ↔ x ∈ s.block_list ∧ x.offset ≠ o) := by
  cases hfind : s.block_list.find? (fun b => decide (b.offset = o)) with
  | none =>
    have h1 : mem_free s (some o) = s :=
      mem_free_noop s o (fun d hd => by rw [hfind] at hd; cases hd)
    rw [h1]
    refine ⟨hs, fun x _ => ⟨fun hx => ⟨hx, ?_⟩, fun hx => hx.1⟩⟩
    simpa using List.find?_eq_none.1 hfind x hx
  | some d =>
    have hdmem : d ∈ s.block_list := List.mem_of_find?_eq_some hfind
    have hdoff : d.offset = o := by simpa using List.find?_some hfind
    by_cases hd : d.is_free = true
    · have h1 : mem_free s (some o) = s :=
        mem_free_noop s o (fun d2 hd2 => by rw [hfind] at hd2; cases hd2; exact hd)
      rw [h1]
      refine ⟨hs, fun x hx => ⟨fun hxm => ⟨hxm, fun hxo => ?_⟩, fun hxm => hxm.1⟩⟩
      have := strict_offset_inj _ hs x d hxm hdmem (hxo.trans hdoff.symm)
      rw [this, hd] at hx
      cases hx
    · obtain ⟨-, pre, post, hl, hpre⟩ := List.find?_eq_some.1 hfind
      subst hdoff
      have hfirst : ∀ b ∈ pre, b.offset ≠ d.offset := fun b hb => by
        simpa using hpre b hb
      have h1 := mem_free_coalesced s capacity pre post d hcap ht hl hfirst (by simpa using hd)
      rw [h1]
      show StrictOffsets (coalesced pre d post) ∧ ∀ x, x.is_free = false →
        (x ∈ coalesced pre d post ↔ x ∈ s.block_list ∧ x.offset ≠ d.offset)
      rw [hl] at hs ⊢
      obtain ⟨hlt, hgt⟩ := strict_split pre post d hs
      refine ⟨coalesced_strict pre d post hs, fun x hx => ⟨fun hxm => ?_, fun hxm => ?_⟩⟩
      · rcases mem_coalesced x pre d post hxm with h | h | h
        · exact ⟨by simp [h], by have := hlt x h; omega⟩
        · exact ⟨by simp [h], by have := hgt x h; omega⟩
        · rw [h] at hx
          cases hx
      · apply mem_coalesced_of_nonfree x pre d post hx
        rcases List.mem_append.1 hxm.1 with h | h
        · exact Or.inl h
        · rcases List.mem_cons.1 h with h2 | h2
          · exact absurd (by rw [h2]) hxm.2
          · exact Or.inr h2

theorem alloc_scan_none_eq (size : Nat) (ok : Bool) :
    ∀ (l : List MemBlock), (alloc_scan size ok l).1 = none → (alloc_scan size ok l).2 = l
  | [], _ => rfl
  | cur :: rest, h => by
    unfold alloc_scan at h ⊢
    by_cases h1 : cur.is_free = true ∧ cur.size ≥ size
    · rw [if_pos h1] at h ⊢
      by_cases h2 : cur.size > size
      · rw [if_pos h2] at h ⊢
        cases ok with
        | true => simp at h
        | false => rfl
      · rw [if_neg h2] at h
        cases h
    · rw [if_neg h1] at h ⊢
      show cur :: (alloc_scan size ok rest).2 = cur :: rest
      rw [alloc_scan_none_eq size ok rest h]

theorem alloc_scan_mem_nonfree (size : Nat) (ok : Bool) (x : MemBlock)
    (hx : x.is_free = false) :
    ∀ (l : List MemBlock), x ∈ l → x ∈ (alloc_scan size ok l).2
  | [], h => by cases h
  | cur :: rest, h => by
    unfold alloc_scan
    by_cases h1 : cur.is_free = true ∧ cur.size ≥ size
    · have hne : x ≠ cur := fun hh => by rw [hh, h1.1] at hx; cases hx
      have hxr : x ∈ rest := by
        rcases List.mem_cons.1 h with h2 | h2
        · exact absurd h2 hne
        · exact h2
      rw [if_pos h1]
      split_ifs <;> simp [hxr]
    · rw [if_neg h1]
      rcases List.mem_cons.1 h with h2 | h2
      · rw [h2]
        exact List.mem_cons_self _ _
      · exact List.mem_cons_of_mem _ (alloc_scan_mem_nonfree size ok x hx rest h2)

theorem alloc_scan_mem_new (size : Nat) (ok : Bool) (q : Nat) :
    ∀ (l : List MemBlock), (alloc_scan size ok l).1 = some q →
      (⟨q, size, false⟩ : MemBlock) ∈ (alloc_scan size ok l).2
  | [], h => by simp [alloc_scan] at h
  | cur :: rest, h => by
    unfold alloc_scan at h ⊢
    by_cases h1 : cur.is_free = true ∧ cur.size ≥ size
    · rw [if_pos h1] at h ⊢
      by_cases h2 : cur.size > size
      · rw [if_pos h2] at h ⊢
        cases ok with
        | true =>
          simp only [if_true, Option.some.injEq] at h ⊢
          rw [h]
          exact List.mem_cons_self _ _
        | false => simp at h
      · rw [if_neg h2] at h ⊢
        simp only [Option.some.injEq] at h
        have hsz : cur.size = size := by omega
        rw [← h, ← hsz]
        exact List.mem_cons_self _ _
    · rw [if_neg h1] at h ⊢
      exact List.mem_cons_of_mem _ (alloc_scan_mem_new size ok q rest h)

/-! ### `mem_resize`: copy fallback -/

theorem resize_scan_cannot_grow (capacity new_size : Nat) (ok : Bool)
    (pre post : List MemBlock) (d : MemBlock) (hcap : capacity < WORD)
    (ht : Tiles 0 (pre ++ d :: post) capacity)
    (hfirst : ∀ b ∈ pre, b.offset ≠ d.offset) (hgrow : d.size < new_size)
    (hnogrow : ∀ n ∈ post.head?, ¬ (n.is_free = true ∧ new_size ≤ d.size + n.size)) :
    resize_scan d.offset new_size ok (pre ++ d :: post) = ResizeScan.moved d.size := by
  have hlt : ¬ d.size ≥ new_size := by omega
  obtain ⟨mid, -, ht2⟩ := Tiles_at_block pre (d :: post) 0 capacity ht
  have hscan : resize_scan d.offset new_size ok (d :: post) = ResizeScan.moved d.size := by
    conv_lhs => unfold resize_scan
    rw [if_pos rfl, if_neg hlt]
    cases post with
    | nil => rfl
    | cons n post2 =>
      simp only [Tiles] at ht2
      have hle := Tiles_le post2 _ _ ht2.2.2
      have hw : wadd d.size n.size = d.size + n.size := wadd_eq (by omega)
      have hcond : ¬ (n.is_free = true ∧ wadd d.size n.size ≥ new_size) := by
        rw [hw]; exact hnogrow n (by simp)
      dsimp only
      rw [if_neg hcond]
  rw [resize_scan_skip _ _ _ _ pre hfirst, hscan]

theorem resize_copy_fallback_of_strict (s : State) (capacity new_size : Nat) (pool : List Nat)
    (pre post : List MemBlock) (d : MemBlock) (hcap : capacity < WORD)
    (hpart : PartitionInv s.block_list capacity) (hstrict : StrictOffsets s.block_list)
    (hpool : s.memory_pool = some pool) (hlen : pool.length = capacity)
    (hchain : s.block_list = pre ++ d :: post) (hd : d.is_free = false)
    (hgrow : d.size < new_size)
    (hnogrow : ∀ n ∈ post.head?, ¬ (n.is_free = true ∧ new_size ≤ d.size + n.size))
    (hfit : ∃ b ∈ s.block_list, b.is_free = true ∧ new_size ≤ b.size) :
    ∃ q, (mem_resize s (some d.offset) new_size true).1 = some q ∧ q ≠ d.offset ∧
      (mem_resize s (some d.offset) new_size true).2.block_list.filter
          (fun b => decide (b.offset = q)) = [⟨q, new_size, false⟩] ∧
      (∀ k, k < min d.size new_size →
        pool_byte (mem_resize s (some d.offset) new_size true).2 (q + k)
          = pool_byte s (d.offset + k)) ∧
      (∀ b ∈ (mem_resize s (some d.offset) new_size true).2.block_list,
        b.offset = d.offset → b.is_free = true) := by
  have hne : new_size ≠ 0 := by omega
  have hsize : 0 < new_size := by omega
  have hdmem : d ∈ s.block_list := by rw [hchain]; simp
  have hfirst : ∀ b ∈ pre, b.offset ≠ d.offset := fun b hb => by
    have := (strict_split pre post d (hchain ▸ hstrict)).1 b hb
    omega
  have hscan : resize_scan d.offset new_size true s.block_list = ResizeScan.moved d.size := by
    rw [hchain]
    exact resize_scan_cannot_grow capacity new_size true pre post d hcap (hchain ▸ hpart.2)
      hfirst hgrow hnogrow
  obtain ⟨q, hret⟩ : ∃ q, (alloc_scan new_size true s.block_list).1 = some q := by
    cases h : (alloc_scan new_size true s.block_list).1 with
    | none =>
      obtain ⟨b, hb, hbf⟩ := hfit
      exact absurd hbf (no_fit_of_alloc_scan_none new_size _ h b hb)
    | some q => exact ⟨q, rfl⟩
  obtain ⟨pre2, d2, post2, hl2, hd2o, hd2f, hd2s, -⟩ :=
    alloc_scan_some new_size true q s.block_list hret
  have hd2mem : d2 ∈ s.block_list := by rw [hl2]; simp
  have hq : q ≠ d.offset := by
    intro hh
    have := strict_offset_inj _ hstrict d2 d hd2mem hdmem (hd2o.trans hh)
    rw [this, hd] at hd2f
    cases hd2f
  have hres : mem_resize s (some d.offset) new_size true =
      (some q, mem_free ⟨some (memcpy pool q d.offset d.size), s.pool_size,
        (alloc_scan new_size true s.block_list).2⟩ (some d.offset)) := by
    simp only [mem_resize, if_neg hne, hscan, mem_alloc, hret, hpool, Option.map_some']
  have ht1 := alloc_scan_tiles new_size true capacity hcap _ _ hpart.2
  have hs1 := alloc_scan_strict new_size true capacity hcap hsize _ _ hpart.2 hstrict
  obtain ⟨hs2, hiff⟩ := mem_free_strict_spec
    ⟨some (memcpy pool q d.offset d.size), s.pool_size,
      (alloc_scan new_size true s.block_list).2⟩ capacity d.offset hcap ht1 hs1
  rw [hres]
  refine ⟨q, rfl, hq, ?_, ?_, ?_⟩
  · have hnew := alloc_scan_mem_new new_size true q s.block_list hret
    have hmem := (hiff ⟨q, new_size, false⟩ rfl).2 ⟨hnew, hq⟩
    exact strict_filter_offset _ hs2 ⟨q, new_size, false⟩ hmem
  · intro k hk
    have hk2 : k < d.size := lt_of_lt_of_le hk (Nat.min_le_left _ _)
    have hb1 := (Tiles_mem_bounds _ _ _ hpart.2 d2 hd2mem).2
    have hb2 := (Tiles_mem_bounds _ _ _ hpart.2 d hdmem).2
    simp only [pool_byte, mem_free_pool, hpool, Option.some_bind]
    exact memcpy_inside pool q d.offset d.size k hk2 (by omega) (by omega)
  · intro b hb hbo
    by_contra hbf
    have hbf2 : b.is_free = false := by simpa using hbf
    exact ((hiff b hbf2).1 hb).2 hbo

/-! ### Live pointers -/

theorem HeldInv_alloc_scan (l : List MemBlock) (held : List Nat) (capacity size : Nat)
    (ok : Bool) (hcap : capacity < WORD) (hsize : 0 < size) (h : HeldInv l held capacity) :
    HeldInv (alloc_scan size ok l).2
      (match (alloc_scan size ok l).1 with
        | some q => q :: held
        | none => held) capacity := by
  obtain ⟨hp, hs, hl⟩ := h
  cases hret : (alloc_scan size ok l).1 with
  | none =>
    rw [alloc_scan_none_eq size ok l hret]
    exact ⟨hp, hs, hl⟩
  | some q =>
    refine ⟨⟨alloc_scan_ne_nil size ok l hp.1, alloc_scan_tiles size ok capacity hcap l 0 hp.2⟩,
      alloc_scan_strict size ok capacity hcap hsize l 0 hp.2 hs, fun p => ?_⟩
    rw [(alloc_scan_live size ok q l hret).mem_iff]
    simp [hl p]

theorem HeldInv_free (s : State) (held : List Nat) (capacity o : Nat) (hcap : capacity < WORD)
    (h : HeldInv s.block_list held capacity) :
    HeldInv (mem_free s (some o)).block_list (held.filter fun p => decide (p ≠ o))
      capacity := by
  obtain ⟨hp, hs, hl⟩ := h
  obtain ⟨hs2, hiff⟩ := mem_free_strict_spec s capacity o hcap hp.2 hs
  refine ⟨mem_free_partition s (some o) capacity hcap hp, hs2, fun p => ?_⟩
  rw [List.mem_filter, hl p, mem_live_iff, mem_live_iff]
  constructor
  · rintro ⟨⟨b, hb, hbf, hbo⟩, hpo⟩
    have hpo2 : p ≠ o := by simpa using hpo
    exact ⟨b, (hiff b hbf).2 ⟨hb, by rw [hbo]; exact hpo2⟩, hbf, hbo⟩
  · rintro ⟨b, hb, hbf, hbo⟩
    obtain ⟨hb2, hne⟩ := (hiff b hbf).1 hb
    exact ⟨⟨b, hb2, hbf, hbo⟩, by rw [← hbo]; simpa using hne⟩

theorem HeldInv_resize (s : State) (held : List Nat) (capacity o size : Nat) (ok : Bool)
    (hcap : capacity < WORD) (h0 : size ≠ 0) (ho : o ∈ held)
    (h : HeldInv s.block_list held capacity) :
    HeldInv (mem_resize s (some o) size ok).2.block_list
      (match (mem_resize s (some o) size ok).1 with
        | some q => q :: held.filter fun p => decide (p ≠ o)
        | none => held) capacity := by
  have hsize : 0 < size := by omega
  obtain ⟨hp, hs, hl⟩ := h
  cases hscan : resize_scan o size ok s.block_list with
  | done ret chain =>
    have hres : mem_resize s (some o) size ok = (ret, { s with block_list := chain }) := by
      simp only [mem_resize, if_neg h0, hscan]
    rw [hres]
    obtain ⟨r1, r2, r3⟩ := resize_scan_strict o size ok capacity hcap hsize _ 0 ret chain
      hp.2 hs hscan
    obtain ⟨t1, t2⟩ := resize_scan_tiles o size ok capacity hcap _ 0 ret chain hp.2 hscan
    rcases r3 with rfl | rfl
    · refine ⟨⟨t2, t1⟩, r1, fun p => ?_⟩
      show p ∈ o :: held.filter (fun p => decide (p ≠ o)) ↔ p ∈ live chain
      rw [r2, ← hl p, List.mem_cons, List.mem_filter]
      constructor
      · rintro (rfl | ⟨hp2, -⟩)
        · exact ho
        · exact hp2
      · intro hp2
        by_cases hpo : p = o
        · exact Or.inl hpo
        · exact Or.inr ⟨hp2, by simpa using hpo⟩
    · refine ⟨⟨t2, t1⟩, r1, fun p => ?_⟩
      show p ∈ held ↔ p ∈ live chain
      rw [r2]
      exact hl p
  | missing =>
    have hres : mem_resize s (some o) size ok = (none, s) := by
      simp only [mem_resize, if_neg h0, hscan]
    rw [hres]
    exact ⟨hp, hs, hl⟩
  | moved old_size =>
    have ha := HeldInv_alloc_scan s.block_list held capacity size ok hcap hsize ⟨hp, hs, hl⟩
    cases hret : (alloc_scan size ok s.block_list).1 with
    | none =>
      have hres : mem_resize s (some o) size ok =
          (none, { s with block_list := (alloc_scan size ok s.block_list).2 }) := by
        simp only [mem_resize, if_neg h0, hscan, mem_alloc, hret]
      rw [hres]
      rw [hret] at ha
      exact ha
    | some q =>
      have hres : mem_resize s (some o) size ok =
          (some q, mem_free ⟨s.memory_pool.map fun pool => memcpy pool q o old_size,
            s.pool_size, (alloc_scan size ok s.block_list).2⟩ (some o)) := by
        simp only [mem_resize, if_neg h0, hscan, mem_alloc, hret]
      rw [hres]
      rw [hret] at ha
      have hf := HeldInv_free
        ⟨s.memory_pool.map fun pool => memcpy pool q o old_size, s.pool_size,
          (alloc_scan size ok s.block_list).2⟩ (q :: held) capacity o hcap ha
      obtain ⟨pre2, d2, post2, hl2, hd2o, hd2f, -, -⟩ :=
        alloc_scan_some size ok q s.block_list hret
      obtain ⟨d, hdm, hdf, hdo⟩ := (mem_live_iff _ _).1 ((hl o).1 ho)
      have hq : q ≠ o := by
        intro hh
        have := strict_offset_inj _ hs d2 d (by rw [hl2]; simp) hdm
          (hd2o.trans (hh.trans hdo.symm))
        rw [this, hdf] at hd2f
        cases hd2f
      have hfil : (q :: held).filter (fun p => decide (p ≠ o))
          = q :: held.filter (fun p => decide (p ≠ o)) := by
        simp [List.filter_cons, hq]
      rw [hfil] at hf
      exact hf

theorem resize_scan_missing (offset size : Nat) (ok : Bool) :
    ∀ (l : List MemBlock), (∀ b ∈ l, b.offset ≠ offset) →
      resize_scan offset size ok l = ResizeScan.missing
  | [], _ => rfl
  | cur :: rest, h => by
    have hc : cur.offset ≠ offset := h cur (by simp)
    unfold resize_scan
    rw [if_neg hc, resize_scan_missing offset size ok rest
      (fun b hb => h b (List.mem_cons_of_mem _ hb))]

theorem HeldInv_step (s : State) (held : List Nat) (capacity : Nat) (op : Op)
    (hcap : capacity < WORD) (h : HeldInv s.block_list held capacity)
    (hproper : proper_step s op = true) :
    HeldInv (step s op).block_list (held_step s held op) capacity := by
  have halloc : ∀ size ok, size ≠ 0 →
      HeldInv (mem_alloc s size ok).2.block_list
        (match (mem_alloc s size ok).1 with
          | some q => q :: held
          | none => held) capacity := by
    intro size ok h0
    have := HeldInv_alloc_scan s.block_list held capacity size ok hcap (by omega) h
    simpa only [mem_alloc, if_neg h0] using this
  have hzero : ∀ ok, (mem_alloc s 0 ok).2 = s := fun ok => by simp [mem_alloc]
  cases op with
  | alloc size ok =>
    simp only [step, held_step]
    by_cases h0 : size = 0
    · subst h0
      rw [if_pos rfl, hzero]
      exact h
    · rw [if_neg h0]
      exact halloc size ok h0
  | free ptr =>
    cases ptr with
    | none => exact h
    | some o => exact HeldInv_free s held capacity o hcap h
  | resize ptr size ok =>
    cases ptr with
    | none =>
      simp only [step, held_step]
      by_cases h0 : size = 0
      · subst h0
        rw [if_pos rfl]
        show HeldInv (mem_alloc s 0 ok).2.block_list held capacity
        rw [hzero]
        exact h
      · rw [if_neg h0]
        exact halloc size ok h0
    | some o =>
      simp only [step, held_step]
      by_cases h0 : size = 0
      · subst h0
        rw [if_pos rfl]
        have hres : mem_resize s (some o) 0 ok = (none, mem_free s (some o)) := by
          simp [mem_resize]
        rw [hres]
        exact HeldInv_free s held capacity o hcap h
      · rw [if_neg h0]
        by_cases ho : o ∈ held
        · exact HeldInv_resize s held capacity o size ok hcap h0 ho h
        · have hnotfree : ∀ b ∈ s.block_list, b.offset = o → b.is_free = false := by
            have hp2 : ∀ x ∈ s.block_list, ¬ x.offset = o ∨ x.is_free = false := by
              simpa [proper_step, h0] using hproper
            intro b hb hbo
            rcases hp2 b hb with h1 | h1
            · exact absurd hbo h1
            · exact h1
          have hnone : ∀ b ∈ s.block_list, b.offset ≠ o := fun b hb hbo =>
            ho ((h.2.2 o).2 ((mem_live_iff _ _).2 ⟨b, hb, hnotfree b hb hbo, hbo⟩))
          have hres : mem_resize s (some o) size ok = (none, s) := by
            simp only [mem_resize, if_neg h0, resize_scan_missing o size ok _ hnone]
          rw [hres]
          exact h

theorem HeldInv_run (capacity : Nat) (hcap : capacity < WORD) :
    ∀ (ops : List Op) (s : State) (held : List Nat), HeldInv s.block_list held capacity →
      proper_run s ops = true →
      HeldInv (run s ops).block_list (held_after s held ops) capacity
  | [], _, _, h, _ => h
  | op :: ops, s, held, h, hproper => by
    simp only [proper_run, Bool.and_eq_true] at hproper
    exact HeldInv_run capacity hcap ops (step s op) (held_step s held op)
      (HeldInv_step s held capacity op hcap h hproper.1) hproper.2

/-- C16 amended (live-pointer invariant): after `mem_init(capacity)` and any finite sequence
of public operations in which `mem_resize` with a size `> 0` is never applied to a pointer
whose descriptor is free, every live pointer (returned non-null by `mem_alloc` or `mem_resize` for a size `> 0`
and not freed since) has exactly one descriptor at its offset, and that descriptor is
non-free. -/
theorem C16_live_pointer_invariant (capacity : Nat) (junk : Nat → Nat) (ops : List Op)
    (hcap : capacity < WORD) (hproper : proper_run (mem_init capacity junk) ops = true) :
    ∀ p ∈ held_after (mem_init capacity junk) [] ops,
      ∃ d, (run (mem_init capacity junk) ops).block_list.filter
          (fun b => decide (b.offset = p)) = [d] ∧ d.is_free = false := by
  have hinit : HeldInv (mem_init capacity junk).block_list [] capacity :=
    ⟨mem_init_partition capacity junk, by simp [mem_init], by simp [mem_init, live]⟩
  obtain ⟨-, hs, hl⟩ := HeldInv_run capacity hcap ops _ [] hinit hproper
  intro p hp
  obtain ⟨d, hdm, hdf, hdo⟩ := (mem_live_iff _ _).1 ((hl p).1 hp)
  refine ⟨d, ?_, hdf⟩
  rw [← hdo]
  exact strict_filter_offset _ hs d hdm

/-- Witness of C16 amended on `mem_init(100)`, `a = mem_alloc(20)`, `b = mem_alloc(30)`,
`mem_alloc(0)`, `mem_resize(a, 40)` (moved to offset 50), `mem_free(b)`,
`mem_resize(NULL, 10)`. -/
theorem C16_live_pointer_invariant_witness :
    held_after (mem_init 100 fun _ => 0) []
        [Op.alloc 20 true, Op.alloc 30 true, Op.alloc 0 true, Op.resize (some 0) 40 true,
         Op.free (some 20), Op.resize none 10 true] = [0, 50] ∧
      ∃ d, (run (mem_init 100 fun _ => 0)
        [Op.alloc 20 true, Op.alloc 30 true, Op.alloc 0 true, Op.resize (some 0) 40 true,
         Op.free (some 20), Op.resize none 10 true]).block_list.filter
          (fun b => decide (b.offset = 50)) = [d] ∧ d.is_free = false :=
  ⟨by decide,
    C16_live_pointer_invariant 100 (fun _ => 0)
      [Op.alloc 20 true, Op.alloc 30 true, Op.alloc 0 true, Op.resize (some 0) 40 true,
       Op.free (some 20), Op.resize none 10 true] (by decide) (by decide) 50 (by decide)⟩

/-! ### States reached from `mem_init` -/

theorem mem_alloc_strict (s : State) (size : Nat) (ok : Bool) (capacity : Nat)
    (hcap : capacity < WORD) (hp : PartitionInv s.block_list capacity)
    (hs : StrictOffsets s.block_list) : StrictOffsets (mem_alloc s size ok).2.block_list := by
  unfold mem_alloc
  split_ifs with h0
  · exact hs
  · exact alloc_scan_strict size ok capacity hcap (by omega) _ 0 hp.2 hs

theorem mem_free_strict (s : State) (ptr : Option Nat) (capacity : Nat)
    (hcap : capacity < WORD) (hp : PartitionInv s.block_list capacity)
    (hs : StrictOffsets s.block_list) : StrictOffsets (mem_free s ptr).block_list := by
  cases ptr with
  | none => exact hs
  | some o => exact (mem_free_strict_spec s capacity o hcap hp.2 hs).1

theorem mem_resize_strict (s : State) (ptr : Option Nat) (size : Nat) (ok : Bool)
    (capacity : Nat) (hcap : capacity < WORD) (hp : PartitionInv s.block_list capacity)
    (hs : StrictOffsets s.block_list) :
    StrictOffsets (mem_resize s ptr size ok).2.block_list := by
  cases ptr with
  | none => exact mem_alloc_strict s size ok capacity hcap hp hs
  | some offset =>
    simp only [mem_resize]
    split_ifs with h0
    · exact mem_free_strict s (some offset) capacity hcap hp hs
    · cases hscan : resize_scan offset size ok s.block_list with
      | done ret chain =>
        exact (resize_scan_strict offset size ok capacity hcap (by omega) _ 0 ret chain
          hp.2 hs hscan).1
      | missing => exact hs
      | moved old_size =>
        have hpa := mem_alloc_partition s size ok capacity hcap hp
        have hsa := mem_alloc_strict s size ok capacity hcap hp hs
        cases hal : mem_alloc s size ok with
        | mk r s1 =>
          rw [hal] at hpa hsa
          cases r with
          | none => exact hsa
          | some new_off =>
            exact mem_free_strict
              { s1 with memory_pool := s1.memory_pool.map fun pool =>
                  memcpy pool new_off offset old_size }
              (some offset) capacity hcap hpa hsa

theorem run_partition_strict (capacity : Nat) (hcap : capacity < WORD) :
    ∀ (ops : List Op) (s : State), PartitionInv s.block_list capacity →
      StrictOffsets s.block_list →
      PartitionInv (run s ops).block_list capacity ∧ StrictOffsets (run s ops).block_list
  | [], _, hp, hs => ⟨hp, hs⟩
  | op :: ops, s, hp, hs => by
    have hs2 : StrictOffsets (step s op).block_list := by
      cases op with
      | alloc size ok => exact mem_alloc_strict s size ok capacity hcap hp hs
      | free ptr => exact mem_free_strict s ptr capacity hcap hp hs
      | resize ptr size ok => exact mem_resize_strict s ptr size ok capacity hcap hp hs
    exact run_partition_strict capacity hcap ops (step s op)
      (step_partition s op capacity hcap hp) hs2

theorem reachable_partition_strict (capacity : Nat) (junk : Nat → Nat) (ops : List Op)
    (hcap : capacity < WORD) :
    PartitionInv (run (mem_init capacity junk) ops).block_list capacity ∧
      StrictOffsets (run (mem_init capacity junk) ops).block_list :=
  run_partition_strict capacity hcap ops _ (mem_init_partition capacity junk)
    (by simp [mem_init])

theorem mem_resize_pool_length (s : State) (ptr : Option Nat) (size : Nat) (ok : Bool)
    (pool : List Nat) (h : s.memory_pool = some pool) :
    ∃ pool2, (mem_resize s ptr size ok).2.memory_pool = some pool2 ∧
      pool2.length = pool.length := by
  cases ptr with
  | none => exact ⟨pool, by rw [← h]; exact mem_alloc_pool s size ok, rfl⟩
  | some offset =>
    simp only [mem_resize]
    split_ifs with h0
    · exact ⟨pool, h, rfl⟩
    · cases resize_scan offset size ok s.block_list with
      | done ret chain => exact ⟨pool, h, rfl⟩
      | missing => exact ⟨pool, h, rfl⟩
      | moved old_size =>
        have ha := mem_alloc_pool s size ok
        cases hal : mem_alloc s size ok with
        | mk r s1 =>
          rw [hal] at ha
          dsimp only at ha
          cases r with
          | none => exact ⟨pool, ha.trans h, rfl⟩
          | some new_off =>
            refine ⟨memcpy pool new_off offset old_size, ?_, memcpy_length _ _ _ _⟩
            simp only [mem_free_pool, ha, h, Option.map_some']

theorem run_pool_length : ∀ (ops : List Op) (s : State) (pool : List Nat),
    s.memory_pool = some pool →
      ∃ pool2, (run s ops).memory_pool = some pool2 ∧ pool2.length = pool.length
  | [], _, pool, h => ⟨pool, h, rfl⟩
  | op :: ops, s, pool, h => by
    have h1 : ∃ pool1, (step s op).memory_pool = some pool1 ∧ pool1.length = pool.length := by
      cases op with
      | alloc size ok => exact ⟨pool, (mem_alloc_pool s size ok).trans h, rfl⟩
      | free ptr => exact ⟨pool, (mem_free_pool s ptr).trans h, rfl⟩
      | resize ptr size ok => exact mem_resize_pool_length s ptr size ok pool h
    obtain ⟨pool1, hp1, hl1⟩ := h1
    obtain ⟨pool2, hp2, hl2⟩ := run_pool_length ops (step s op) pool1 hp1
    exact ⟨pool2, hp2, hl2.trans hl1⟩

/-- C10 (double free is idempotent): for every pointer `p` the state after
`mem_free(p); mem_free(p)` equals the state after one `mem_free(p)`, in every state whose chain
satisfies the partition invariant with strictly increasing offsets, and hence in every state
reached from `mem_init(capacity)` by public operations (whether the freed block kept its
descriptor or was merged into its predecessor). -/
theorem C10_double_free_idempotent (capacity : Nat) (hcap : capacity < WORD) :
    (∀ (s : State) (p : Option Nat), PartitionInv s.block_list capacity →
      StrictOffsets s.block_list → mem_free (mem_free s p) p = mem_free s p) ∧
    (∀ (junk : Nat → Nat) (ops : List Op) (p : Option Nat),
      mem_free (mem_free (run (mem_init capacity junk) ops) p) p
        = mem_free (run (mem_init capacity junk) ops) p) := by
  refine ⟨fun s p hp hs => mem_free_twice_of_strict s capacity p hcap hp hs,
    fun junk ops p => ?_⟩
  obtain ⟨hp, hs⟩ := reachable_partition_strict capacity junk ops hcap
  exact mem_free_twice_of_strict _ capacity p hcap hp hs

/-- Witness of C10: after `mem_init(100)`, `a = mem_alloc(10)`, `b = mem_alloc(20)`,
`mem_free(a)` the chain is `[free 0..10, non-free 10..30, free 30..100]`; freeing `b` merges it
with both neighbours, and a second `mem_free(b)` changes nothing. -/
theorem C10_double_free_idempotent_witness :
    (run (mem_init 100 fun _ => 0)
        [Op.alloc 10 true, Op.alloc 20 true, Op.free (some 0)]).block_list
      = [⟨0, 10, true⟩, ⟨10, 20, false⟩, ⟨30, 70, true⟩] ∧
    mem_free (mem_free (run (mem_init 100 fun _ => 0)
        [Op.alloc 10 true, Op.alloc 20 true, Op.free (some 0)]) (some 10)) (some 10)
      = mem_free (run (mem_init 100 fun _ => 0)
        [Op.alloc 10 true, Op.alloc 20 true, Op.free (some 0)]) (some 10) :=
  ⟨by decide,
    (C10_double_free_idempotent 100 (by decide)).2 (fun _ => 0)
      [Op.alloc 10 true, Op.alloc 20 true, Op.free (some 0)] (some 10)⟩

/-- C13 (resize copy fallback): let `p` designate the non-free descriptor `d` of size `L`, let
`new_size > L`, let the next descriptor be absent, non-free or too small (`L` plus its size
below `new_size`), and let some free descriptor have size at least `new_size`.  With
descriptor storage available, `mem_resize(p, new_size)` returns an address different from `p`
that designates a non-free descriptor of size `new_size`, the first `min(L, new_size)` bytes
there are the bytes that were at `p`, and the old block is freed (`copy_fallback_post`).  This
holds in every state whose chain satisfies the partition invariant with strictly increasing
offsets and whose pool has `capacity` bytes, and hence in every state reached from
`mem_init(capacity)` by public operations. -/
theorem C13_resize_copy_fallback (capacity new_size : Nat) (hcap : capacity < WORD) :
    (∀ (s : State) (pool : List Nat) (pre post : List MemBlock) (d : MemBlock),
      PartitionInv s.block_list capacity → StrictOffsets s.block_list →
      s.memory_pool = some pool → pool.length = capacity →
      s.block_list = pre ++ d :: post → d.is_free = false → d.size < new_size →
      (∀ n ∈ post.head?, ¬ (n.is_free = true ∧ new_size ≤ d.size + n.size)) →
      (∃ b ∈ s.block_list, b.is_free = true ∧ new_size ≤ b.size) →
      copy_fallback_post s d.offset d.size new_size) ∧
    (∀ (junk : Nat → Nat) (ops : List Op) (pre post : List MemBlock) (d : MemBlock),
      (run (mem_init capacity junk) ops).block_list = pre ++ d :: post →
      d.is_free = false → d.size < new_size →
      (∀ n ∈ post.head?, ¬ (n.is_free = true ∧ new_size ≤ d.size + n.size)) →
      (∃ b ∈ (run (mem_init capacity junk) ops).block_list,
        b.is_free = true ∧ new_size ≤ b.size) →
      copy_fallback_post (run (mem_init capacity junk) ops) d.offset d.size new_size) := by
  constructor
  · intro s pool pre post d hp hs hpool hlen hchain hd hgrow hnogrow hfit
    exact resize_copy_fallback_of_strict s capacity new_size pool pre post d hcap hp hs hpool
      hlen hchain hd hgrow hnogrow hfit
  · intro junk ops pre post d hchain hd hgrow hnogrow hfit
    obtain ⟨hp, hs⟩ := reachable_partition_strict capacity junk ops hcap
    obtain ⟨pool, hpool, hlen⟩ := run_pool_length ops (mem_init capacity junk)
      ((List.range capacity).map junk) rfl
    exact resize_copy_fallback_of_strict _ capacity new_size pool pre post d hcap hp hs hpool
      (by simpa using hlen) hchain hd hgrow hnogrow hfit

/-- Witness of C13: after `mem_init(100)` with bytes `0, 1, 2, ...`, `a = mem_alloc(10)`,
`b = mem_alloc(20)` the chain is `[non-free 0..10, non-free 10..30, free 30..100]`;
`mem_resize(a, 15)` cannot grow in place and moves the block to offset 30. -/
theorem C13_resize_copy_fallback_witness :
    (mem_resize (run (mem_init 100 fun i => i) [Op.alloc 10 true, Op.alloc 20 true])
        (some 0) 15 true).1 = some 30 ∧
      copy_fallback_post (run (mem_init 100 fun i => i) [Op.alloc 10 true, Op.alloc 20 true])
        0 10 15 :=
  ⟨by decide,
    (C13_resize_copy_fallback 100 15 (by decide)).2 (fun i => i)
      [Op.alloc 10 true, Op.alloc 20 true] [] [⟨10, 20, false⟩, ⟨30, 70, true⟩]
      ⟨0, 10, false⟩ (by decide) rfl (by decide) (by simp)
      ⟨⟨30, 70, true⟩, by decide, by decide⟩⟩

end MemoryManager
